import Mathlib

/- A verification development for the Molecule class of
   mass-spec-python-tools (src/_classes/_Molecule.py): the formula parser,
   the isotope pattern engine and the composition mutation operators.

   Modelling conventions, applied uniformly:
   - Python dictionaries are modelled as insertion-ordered association
     lists (iteration order is the list order);
   - Python float arithmetic is modelled exactly over the rationals;
   - the Python string predicates isupper/islower/isdigit/isalpha are
     modelled by their ASCII behaviour;
   - code that raises an exception (or returns an error value) is
     modelled with Option or an explicit result inductive. -/

/- The rational arithmetic primitives are shipped irreducible; make them
   reducible in this file so that concrete spectra evaluate by decide. -/
unseal Rat.mul Rat.inv Rat.add Rat.sub

namespace Molecule

/-- A composition key: a plain element symbol such as "C", or an explicit
isotope designator such as "13C", as a character list. -/
abbrev Key := List Char

/-- A composition: association list from element/isotope keys to counts,
modelling the Python dict self.comp in insertion order. -/
abbrev Comp := List (Key × Int)

/-- Charge configuration: the pair (self.ks charge, self.ks sign). -/
abbrev KS := Int × Char

/-- The external mass dictionary (nist_mass): element symbol to a list of
(isotope number, exact mass, natural abundance) entries; isotope number 0
is the aggregate entry. -/
abbrev MD := List (Key × List (Nat × ℚ × ℚ))

/-- Dictionary lookup self.comp[key], as an Option. -/
def lookupC : Comp → Key → Option Int
  | [], _ => none
  | (k', v) :: r, k => if k' = k then some v else lookupC r k

/-- In-place assignment comp[k] = v for a key already present. -/
def updateKey : Comp → Key → Int → Comp
  | [], _, _ => []
  | (k', v') :: r, k, v =>
    if k' = k then (k', v) :: r else (k', v') :: updateKey r k v

/-- del comp[k]: removes the key, preserving the order of the others. -/
def removeKey (c : Comp) (k : Key) : Comp :=
  c.filter (fun p => !(decide (p.1 = k)))

/-- The try/except idiom comp[k] += v (on KeyError comp[k] = v): add to an
existing key or append a new one. -/
def addKey (c : Comp) (k : Key) (v : Int) : Comp :=
  match lookupC c k with
  | some v0 => updateKey c k (v0 + v)
  | none => c ++ [(k, v)]

/-- Outcome of Molecule.__sub__: normal success, the ValueError raised for a
negative resultant count, or the error string returned (not raised) when a
key of the operand is absent from the composition. -/
inductive SubRes
  | ok
  | raisedNegative
  | returnedMissing
  deriving DecidableEq

/-- Molecule.__sub__ (lines 89-109): iterate over the operand's keys,
mutating self.comp key by key; raise ValueError when a count would go
negative, delete the key when it reaches zero, and return an error string
(stopping the loop) when the key is missing.  The returned composition is
the state of self.comp when the loop stops. -/
def subLoop : Comp → List (Key × Int) → Comp × SubRes
  | c, [] => (c, .ok)
  | c, (k, v) :: rest =>
    match lookupC c k with
    | none => (c, .returnedMissing)
    | some cv =>
      if cv - v > 0 then subLoop (updateKey c k (cv - v)) rest
      else if cv - v = 0 then subLoop (removeKey c k) rest
      else (c, .raisedNegative)

/-- Outcome of Molecule.__div__: success, the ValueError raised on a
non-integer quotient, or the ZeroDivisionError from float division by 0. -/
inductive DivRes
  | ok
  | raisedNonInteger
  | raisedZeroDivision
  deriving DecidableEq

/-- Molecule.__div__ (lines 120-131), processing loop: for each key in
order, compute count/x (float division, modelled exactly); if the quotient
is not an integer raise ValueError, else store the integer quotient.  The
accumulator holds the keys already processed (mutated in place in the
source). -/
def divLoop (x : Int) : Comp → Comp → Comp × DivRes
  | acc, [] => (acc, .ok)
  | acc, (k, v) :: rest =>
    if x = 0 then (acc ++ (k, v) :: rest, .raisedZeroDivision)
    else if v % x = 0 then divLoop x (acc ++ [(k, v / x)]) rest
    else (acc ++ (k, v) :: rest, .raisedNonInteger)

/-- Molecule.__div__ on a composition. -/
def divOp (c : Comp) (x : Int) : Comp × DivRes := divLoop x [] c

/- ASCII models of the Python character predicates. -/

def isUpperC (c : Char) : Bool := decide (65 ≤ c.toNat ∧ c.toNat ≤ 90)

def isLowerC (c : Char) : Bool := decide (97 ≤ c.toNat ∧ c.toNat ≤ 122)

def isDigitC (c : Char) : Bool := decide (48 ≤ c.toNat ∧ c.toNat ≤ 57)

def isAlphaC (c : Char) : Bool := isUpperC c || isLowerC c

/-- int() of a string of decimal digits. -/
def strToNat (l : List Char) : Nat :=
  l.foldl (fun a c => 10 * a + (c.toNat - 48)) 0

/-- The argument of Molecule.interpretcharge: an int or a string. -/
inductive ChargeIn
  | intC (n : Int)
  | strC (s : List Char)

/-- The sign scan of interpretcharge (lines 470-474): sign is the last
mode character encountered, defaulting to '+'. -/
def signFold (s : List Char) : Char :=
  s.foldl (fun sg c => if c = '+' then '+' else if c = '-' then '-' else sg) '+'

/-- Molecule.interpretcharge (lines 463-475): an int is returned unchanged
with sign '+'; in a string the mode characters set the sign and the other
characters accumulate into the value, which int() must parse (else the
ValueError is modelled as none). -/
def interpretcharge : ChargeIn → Option KS
  | .intC n => some (n, '+')
  | .strC s =>
    let value := s.filter (fun c => !(decide (c = '+')) && !(decide (c = '-')))
    if value ≠ [] ∧ value.all isDigitC then
      some ((strToNat value : Int), signFold s)
    else none

/- Helper lemmas about the association list operations. -/

theorem lookupC_cons (k' : Key) (v : Int) (r : List (Key × Int)) (k : Key) :
    lookupC ((k', v) :: r) k = if k' = k then some v else lookupC r k := rfl

theorem removeKey_cons_self {p : Key × Int} {r : List (Key × Int)} {k : Key}
    (h : p.1 = k) : removeKey (p :: r) k = removeKey r k := by
  simp [removeKey, List.filter_cons, h]

theorem removeKey_cons_ne {p : Key × Int} {r : List (Key × Int)} {k : Key}
    (h : ¬ p.1 = k) : removeKey (p :: r) k = p :: removeKey r k := by
  simp [removeKey, List.filter_cons, h]

theorem lookupC_updateKey_self {c : Comp} {k : Key} {v0 : Int} (v : Int)
    (h : lookupC c k = some v0) : lookupC (updateKey c k v) k = some v := by
  induction c with
  | nil => simp [lookupC] at h
  | cons p r ih =>
    obtain ⟨k', v'⟩ := p
    by_cases hk : k' = k
    · simp [lookupC_cons, updateKey, hk]
    · rw [lookupC_cons, if_neg hk] at h
      simp only [updateKey, if_neg hk]
      rw [lookupC_cons, if_neg hk]
      exact ih h

theorem lookupC_updateKey_ne {c : Comp} {k k' : Key} (v : Int)
    (h : k' ≠ k) : lookupC (updateKey c k v) k' = lookupC c k' := by
  induction c with
  | nil => simp [updateKey]
  | cons p r ih =>
    obtain ⟨k0, v0⟩ := p
    by_cases hk : k0 = k
    · have hne : ¬ k0 = k' := fun hc => h (hc ▸ hk)
      simp only [updateKey, if_pos hk]
      rw [lookupC_cons, if_neg hne, lookupC_cons, if_neg hne]
    · simp only [updateKey, if_neg hk]
      rw [lookupC_cons, lookupC_cons, ih]

theorem lookupC_removeKey_self (c : Comp) (k : Key) :
    lookupC (removeKey c k) k = none := by
  induction c with
  | nil => rfl
  | cons p r ih =>
    obtain ⟨k', v'⟩ := p
    by_cases hk : k' = k
    · rw [removeKey_cons_self hk]
      exact ih
    · rw [removeKey_cons_ne hk, lookupC_cons, if_neg hk]
      exact ih

theorem lookupC_removeKey_ne {c : Comp} {k k' : Key} (h : k' ≠ k) :
    lookupC (removeKey c k) k' = lookupC c k' := by
  induction c with
  | nil => rfl
  | cons p r ih =>
    obtain ⟨k0, v0⟩ := p
    by_cases hk : k0 = k
    · have hne : ¬ k0 = k' := fun hc => h (hc ▸ hk)
      rw [removeKey_cons_self hk, lookupC_cons, if_neg hne]
      exact ih
    · rw [removeKey_cons_ne hk, lookupC_cons, lookupC_cons, ih]

theorem lookupC_eq_none_of_not_mem {d : List (Key × Int)} {k : Key}
    (h : k ∉ d.map Prod.fst) : lookupC d k = none := by
  induction d with
  | nil => rfl
  | cons q qr ih =>
    obtain ⟨k0, v0⟩ := q
    have h1 : ¬ k0 = k := fun hc => h (by simp [hc])
    rw [lookupC_cons, if_neg h1]
    exact ih (fun hc => h (by simp at hc ⊢; exact Or.inr hc))

/-- The per-key result of a feasible subtraction, following the
specification's description: keys of the operand are decremented, a key
whose count reaches zero is removed, all other keys are untouched. -/
def expectedSub (c d : Comp) (k : Key) : Option Int :=
  match lookupC d k with
  | none => lookupC c k
  | some dv =>
    match lookupC c k with
    | none => none
    | some cv => if cv - dv = 0 then none else some (cv - dv)

theorem expectedSub_nil (c : Comp) (k : Key) : expectedSub c [] k = lookupC c k := rfl

theorem expectedSub_cons_self {c : Comp} {k : Key} {v cv : Int}
    {rest : List (Key × Int)}
    (hcv : lookupC c k = some cv) :
    expectedSub c ((k, v) :: rest) k
      = if cv - v = 0 then none else some (cv - v) := by
  simp [expectedSub, lookupC_cons, hcv]

theorem expectedSub_cons_ne {c : Comp} {k k' : Key} {v : Int}
    {rest : List (Key × Int)} (h : ¬ k = k') :
    expectedSub c ((k, v) :: rest) k' = expectedSub c rest k' := by
  simp only [expectedSub, lookupC_cons, if_neg h]

/-- Claim C1, counterexample: subtracting the composition H2 O3 from the
composition H4 O2 raises the negative-count ValueError on O, but the key H
processed before it has already been decremented, so the caller's
composition is no longer what it was before the subtraction began. -/
theorem C1_counterexample :
    subLoop [(['H'], 4), (['O'], 2)] [(['H'], 2), (['O'], 3)]
      = ([(['H'], 2), (['O'], 2)], SubRes.raisedNegative) ∧
    ([(['H'], 2), (['O'], 2)] : Comp) ≠ [(['H'], 4), (['O'], 2)] := by
  decide

/-- Claim C1, amended: when every key of the operand is present in the
composition with a count at least the subtracted count, __sub__ succeeds
and produces exactly the decremented composition (zero-count keys removed,
other keys untouched); when a key fails, the failure is surfaced but keys
processed earlier in iteration order keep their already-mutated values. -/
theorem C1_sub_feasible_ok (c : Comp) (d : List (Key × Int))
    (hnd : (d.map Prod.fst).Nodup)
    (hf : ∀ p ∈ d, ∃ cv, lookupC c p.1 = some cv ∧ p.2 ≤ cv) :
    (subLoop c d).2 = SubRes.ok ∧
    ∀ k, lookupC (subLoop c d).1 k = expectedSub c d k := by
  induction d generalizing c with
  | nil => exact ⟨rfl, fun k => (expectedSub_nil c k).symm⟩
  | cons p rest ih =>
    obtain ⟨k, v⟩ := p
    obtain ⟨cv, hcv, hle⟩ := hf (k, v) (List.mem_cons_self _ _)
    have hnd' : (rest.map Prod.fst).Nodup := (List.nodup_cons.mp (by simpa using hnd)).2
    have hknot : k ∉ rest.map Prod.fst := (List.nodup_cons.mp (by simpa using hnd)).1
    have hrestlookup : lookupC rest k = none := lookupC_eq_none_of_not_mem hknot
    rcases lt_trichotomy (cv - v) 0 with hneg | hzero | hpos
    · omega
    · -- key reaches zero: it is deleted
      have hbranch : ¬ (cv - v > 0) := by omega
      have hres : subLoop c ((k, v) :: rest) = subLoop (removeKey c k) rest := by
        simp [subLoop, hcv, hbranch, hzero]
      rw [hres]
      have hf' : ∀ p ∈ rest, ∃ cv', lookupC (removeKey c k) p.1 = some cv' ∧ p.2 ≤ cv' := by
        intro q hq
        obtain ⟨cv', h1, h2⟩ := hf q (by simp [hq])
        have hne : q.1 ≠ k := by
          intro hc
          exact hknot (hc ▸ List.mem_map_of_mem Prod.fst hq)
        exact ⟨cv', by rw [lookupC_removeKey_ne hne]; exact h1, h2⟩
      obtain ⟨hok, hlk⟩ := ih (removeKey c k) hnd' hf'
      refine ⟨hok, fun k' => ?_⟩
      rw [hlk k']
      by_cases hkk : k' = k
      · subst hkk
        rw [expectedSub_cons_self hcv, if_pos hzero]
        have hsub : expectedSub (removeKey c k') rest k' = lookupC (removeKey c k') k' := by
          simp only [expectedSub, hrestlookup]
        rw [hsub, lookupC_removeKey_self]
      · have h1 : ¬ k = k' := fun hc => hkk hc.symm
        rw [expectedSub_cons_ne h1]
        have hsub : expectedSub (removeKey c k) rest k' = expectedSub c rest k' := by
          simp only [expectedSub, lookupC_removeKey_ne hkk]
        rw [hsub]
    · -- key stays positive: it is decremented
      have hres : subLoop c ((k, v) :: rest) = subLoop (updateKey c k (cv - v)) rest := by
        simp [subLoop, hcv, hpos]
      rw [hres]
      have hf' : ∀ p ∈ rest, ∃ cv', lookupC (updateKey c k (cv - v)) p.1 = some cv' ∧ p.2 ≤ cv' := by
        intro q hq
        obtain ⟨cv', h1, h2⟩ := hf q (by simp [hq])
        have hne : q.1 ≠ k := by
          intro hc
          exact hknot (hc ▸ List.mem_map_of_mem Prod.fst hq)
        exact ⟨cv', by rw [lookupC_updateKey_ne _ hne]; exact h1, h2⟩
      obtain ⟨hok, hlk⟩ := ih (updateKey c k (cv - v)) hnd' hf'
      refine ⟨hok, fun k' => ?_⟩
      rw [hlk k']
      by_cases hkk : k' = k
      · subst hkk
        have hz : ¬ (cv - v = 0) := by omega
        rw [expectedSub_cons_self hcv, if_neg hz]
        have hsub : expectedSub (updateKey c k' (cv - v)) rest k'
            = lookupC (updateKey c k' (cv - v)) k' := by
          simp only [expectedSub, hrestlookup]
        rw [hsub]
        exact lookupC_updateKey_self (cv - v) hcv
      · have h1 : ¬ k = k' := fun hc => hkk hc.symm
        rw [expectedSub_cons_ne h1]
        have hsub : expectedSub (updateKey c k (cv - v)) rest k' = expectedSub c rest k' := by
          simp only [expectedSub, lookupC_updateKey_ne _ hkk]
        rw [hsub]

/-- Witness for C1_sub_feasible_ok at the composition H2 O1 minus H1 O1. -/
theorem C1_sub_feasible_ok_witness :
    (subLoop [(['H'], 2), (['O'], 1)] [(['H'], 1), (['O'], 1)]).2 = SubRes.ok ∧
    ∀ k, lookupC (subLoop [(['H'], 2), (['O'], 1)] [(['H'], 1), (['O'], 1)]).1 k
      = expectedSub [(['H'], 2), (['O'], 1)] [(['H'], 1), (['O'], 1)] k :=
  C1_sub_feasible_ok [(['H'], 2), (['O'], 1)] [(['H'], 1), (['O'], 1)]
    (by decide) (by decide)

/-- Claim C7, counterexample: dividing the composition C2 H3 by 2 raises
the non-integer ValueError on H, but the key C processed before it has
already been halved: the failed division does not leave the composition
unchanged. -/
theorem C7_counterexample :
    divOp [(['C'], 2), (['H'], 3)] 2
      = ([(['C'], 1), (['H'], 3)], DivRes.raisedNonInteger) ∧
    ([(['C'], 1), (['H'], 3)] : Comp) ≠ [(['C'], 2), (['H'], 3)] := by
  decide

theorem divLoop_acc (x : Int) (hx : x ≠ 0) (c : Comp) :
    ∀ acc : Comp,
      ((divLoop x acc c).2 = DivRes.ok ↔ ∀ p ∈ c, x ∣ p.2) ∧
      ((∀ p ∈ c, x ∣ p.2) →
        (divLoop x acc c).1 = acc ++ c.map (fun p => (p.1, p.2 / x))) := by
  induction c with
  | nil => intro acc; simp [divLoop]
  | cons p rest ih =>
    intro acc
    obtain ⟨k, v⟩ := p
    by_cases hdvd : v % x = 0
    · have hstep : divLoop x acc ((k, v) :: rest) = divLoop x (acc ++ [(k, v / x)]) rest := by
        simp [divLoop, hx, hdvd]
      have hdv : x ∣ v := Int.dvd_of_emod_eq_zero hdvd
      obtain ⟨h1, h2⟩ := ih (acc ++ [(k, v / x)])
      constructor
      · rw [hstep, h1]
        constructor
        · intro hall q hq
          rcases List.mem_cons.mp hq with hq1 | hq2
          · rw [hq1]; exact hdv
          · exact hall q hq2
        · intro hall q hq
          exact hall q (by simp [hq])
      · intro hall
        rw [hstep, h2 (fun q hq => hall q (by simp [hq]))]
        simp
    · have hdv : ¬ x ∣ v := by
        intro hc
        exact hdvd (Int.emod_eq_zero_of_dvd hc)
      constructor
      · constructor
        · intro hc
          simp [divLoop, hx, hdvd] at hc
        · intro hall
          exact absurd (hall (k, v) (List.mem_cons_self _ _)) hdv
      · intro hall
        exact absurd (hall (k, v) (List.mem_cons_self _ _)) hdv

/-- Claim C7, amended: for a nonzero integer divisor, __div__ succeeds if
and only if every count is evenly divisible, and on success every count is
exactly divided; on failure a ValueError is raised but the keys processed
before the offending one have already been scaled (so the composition is
not necessarily left unchanged, as the counterexample shows). -/
theorem C7_div_iff (c : Comp) (x : Int) (hx : x ≠ 0) :
    ((divOp c x).2 = DivRes.ok ↔ ∀ p ∈ c, x ∣ p.2) ∧
    ((∀ p ∈ c, x ∣ p.2) → (divOp c x).1 = c.map (fun p => (p.1, p.2 / x))) := by
  obtain ⟨h1, h2⟩ := divLoop_acc x hx c []
  refine ⟨h1, fun hall => ?_⟩
  have h3 := h2 hall
  rw [List.nil_append] at h3
  exact h3

/-- Witness for C7_div_iff: dividing C2 H4 by 2 succeeds and halves both
counts. -/
theorem C7_div_iff_witness :
    (divOp [(['C'], 2), (['H'], 4)] 2).1
      = ([(['C'], 2), (['H'], 4)] : Comp).map (fun p => (p.1, p.2 / 2)) :=
  (C7_div_iff [(['C'], 2), (['H'], 4)] 2 (by norm_num)).2 (by
    intro p hp
    rcases List.mem_cons.mp hp with h1 | hp2
    · subst h1
      exact ⟨1, by norm_num⟩
    · rcases List.mem_cons.mp hp2 with h1 | h1
      · subst h1
        exact ⟨2, by norm_num⟩
      · exact absurd h1 (List.not_mem_nil p))

theorem signFold_eq_minus_mem :
    ∀ (s : List Char) (sg : Char),
      s.foldl (fun sg c => if c = '+' then '+' else if c = '-' then '-' else sg) sg = '-' →
      '-' ∈ s ∨ sg = '-' := by
  intro s
  induction s with
  | nil => intro sg h; exact Or.inr h
  | cons c cs ih =>
    intro sg h
    simp only [List.foldl_cons] at h
    rcases ih _ h with hmem | hsg
    · exact Or.inl (List.mem_cons_of_mem _ hmem)
    · by_cases h1 : c = '+'
      · rw [if_pos h1] at hsg
        exact absurd hsg (by decide)
      · by_cases h2 : c = '-'
        · exact Or.inl (h2 ▸ List.mem_cons_self _ _)
        · rw [if_neg h1, if_neg h2] at hsg
          exact Or.inr hsg

/-- Claim C10: interpretcharge returns any integer argument unchanged with
the sign '+' (negative integers included), and a string argument can only
produce the sign '-' when it contains a '-' character. -/
theorem C10_interpretcharge (n : Int) (s : List Char) (v : Int)
    (h : interpretcharge (ChargeIn.strC s) = some (v, '-')) :
    interpretcharge (ChargeIn.intC n) = some (n, '+') ∧ '-' ∈ s := by
  refine ⟨rfl, ?_⟩
  simp only [interpretcharge] at h
  split at h
  · have hs : signFold s = '-' := by
      injection h with h'
      have := congrArg Prod.snd h'
      simpa using this
    rcases signFold_eq_minus_mem s '+' hs with hmem | habs
    · exact hmem
    · exact absurd habs (by decide)
  · exact absurd h (by simp)

/-- Witness for C10_interpretcharge at n = -2 and the charge string "2-". -/
theorem C10_interpretcharge_witness :
    interpretcharge (ChargeIn.intC (-2)) = some (-2, '+') ∧ '-' ∈ ['2', '-'] :=
  C10_interpretcharge (-2) ['2', '-'] 2 (by decide)

/- The isotope pattern engine.  The Spectrum accumulator lives in
   _Spectrum.py, which is not part of the core source; it is modelled from
   the spec (sections 3 and 6): a binned series of (mass, intensity) pairs
   kept in ascending mass order, with accumulate/normalize/threshold/trim
   operations. -/

/-- Modelled from the spec: Spectrum.addvalue accumulates an intensity
contribution into the bin at the given (already rounded) mass, keeping the
bins in ascending mass order. -/
def addvalue : List (ℚ × ℚ) → ℚ → ℚ → List (ℚ × ℚ)
  | [], m, i => [(m, i)]
  | (m', i') :: rest, m, i =>
    if m < m' then (m, i) :: (m', i') :: rest
    else if m = m' then (m', i' + i) :: rest
    else (m', i') :: addvalue rest m i

/-- max(intensities) of a spectrum (Python max of a nonempty list; 0 is
returned only on the empty list, which the source never maxes over). -/
def maxIntensity : List (ℚ × ℚ) → ℚ
  | [] => 0
  | p :: rest => rest.foldl (fun a q => max a q.2) p.2

/-- Modelled from the spec: Spectrum.normalize(top) scales every intensity
so that the maximum equals top. -/
def normalizeSpec (top : ℚ) (l : List (ℚ × ℚ)) : List (ℚ × ℚ) :=
  l.map (fun p => (p.1, p.2 / maxIntensity l * top))

/-- Modelled from the spec: Spectrum.threshold(t) drops every entry whose
intensity is below the absolute threshold t. -/
def thresholdSpec (t : ℚ) (l : List (ℚ × ℚ)) : List (ℚ × ℚ) :=
  l.filter (fun p => decide (t ≤ p.2))

/-- Python round(x, dec) on the nonnegative masses handled here (Python 2
rounds half away from zero, so half up for nonnegative input). -/
def roundTo (dec : Nat) (q : ℚ) : ℚ :=
  ((Rat.floor (q * ((10 ^ dec : ℕ) : ℚ) + 1 / 2) : ℤ) : ℚ) / ((10 ^ dec : ℕ) : ℚ)

/-- One atom's convolution step of rawisotopepattern (lines 631-644): for
every isotope of the element with nonzero abundance (skipping the
aggregate entry 0) and every mass in the running pattern, accumulate
intensity*abundance at mass+isotope mass (rounded to dec places); then
normalize the new spectrum to a maximum of 100, drop entries below the
absolute threshold and export it. -/
def convolveAtom (dec : Nat) (thresh : ℚ) (isos : List (Nat × ℚ × ℚ))
    (out : List (ℚ × ℚ)) : List (ℚ × ℚ) :=
  thresholdSpec thresh (normalizeSpec 100
    (isos.foldl (fun sp e =>
      if e.1 ≠ 0 ∧ e.2.2 ≠ 0 then
        out.foldl (fun sp2 p => addvalue sp2 (p.1 + roundTo dec e.2.1) (p.2 * e.2.2)) sp
      else sp) []))

/-- The while loop of Molecule.isotope (lines 482-489): at index i, consume
a digit into iso if present, then (the second independent if) consume a
letter into ele if present.  Reading past the end is the uncaught
IndexError, a character that is neither digit nor letter loops forever;
both are modelled as none.  The fuel argument only bounds the iteration
count for structural recursion: every iteration consumes at least one
character, so fuel equal to the list length is never exhausted. -/
def isotopeLoop : Nat → List Char → List Char → List Char → Option (List Char × List Char)
  | _, [], iso, ele => some (iso, ele)
  | 0, _ :: _, _, _ => none
  | fuel + 1, c :: rest, iso, ele =>
    if isDigitC c then
      match rest with
      | [] => none
      | d :: rest2 =>
        if isAlphaC d then isotopeLoop fuel rest2 (iso ++ [c]) (ele ++ [d])
        else isotopeLoop fuel rest (iso ++ [c]) ele
    else if isAlphaC c then isotopeLoop fuel rest iso (ele ++ [c])
    else none

/-- Molecule.isotope (lines 477-492): split an undefined key into element
symbol and isotope number; int() failure raises (modelled as none). -/
def isotopeParse (s : List Char) : Option (List Char × Nat) :=
  match s with
  | [] => none
  | c :: rest =>
    match isotopeLoop rest.length rest [c] [] with
    | some (iso, ele) =>
      if iso.all isDigitC then some (ele, strToNat iso) else none
    | none => none

/-- isotopeParse with a default, used where checkinnist has already
validated the key so the parse cannot fail. -/
def isotopeParseD (s : List Char) : List Char × Nat := (isotopeParse s).getD ([], 0)

/-- self.md[element] lookup. -/
def lookupMD : MD → Key → Option (List (Nat × ℚ × ℚ))
  | [], _ => none
  | (k', v) :: r, k => if k' = k then some v else lookupMD r k

/-- self.md[element][isotope] lookup inside one element's entry list. -/
def entLookup : List (Nat × ℚ × ℚ) → Nat → ℚ × ℚ
  | [], _ => (0, 0)
  | e :: r, i => if e.1 = i then (e.2.1, e.2.2) else entLookup r i

/-- self.md[ele][iso][0], the exact mass of one isotope. -/
def isoMass (md : MD) (ele : Key) (iso : Nat) : ℚ :=
  (entLookup ((lookupMD md ele).getD []) iso).1

/-- for n in range(cnt): apply f. -/
def iterN (f : α → α) : Nat → α → α
  | 0, x => x
  | n + 1, x => iterN f n (f x)

/-- Molecule.rawisotopepattern (lines 607-655): start from the single peak
(0, 100); for a natural-abundance key convolve one atom at a time, cnt
times; for an explicit isotope key (the else branch, lines 645-650) shift
every mass by that isotope's exact mass -- note that this shift is applied
once, outside any per-atom loop, regardless of the key's count. -/
def rawisotopepattern (md : MD) (comp : Comp) (thresh : ℚ) (dec : Nat) :
    List (ℚ × ℚ) :=
  comp.foldl (fun out p =>
    match lookupMD md p.1 with
    | some isos => iterN (convolveAtom dec thresh isos) p.2.toNat out
    | none =>
      out.map (fun q => (q.1 + isoMass md (isotopeParseD p.1).1 (isotopeParseD p.1).2, q.2)))
    [(0, 100)]

/-- Molecule.roughexactmass (lines 661-682): monoisotopic estimate, the
aggregate mass (or the isotope's exact mass) times the count, summed and
divided by the charge.  Note the explicit multiplication by the count in
both branches. -/
def roughexactmass (md : MD) (comp : Comp) (charge : Int) : ℚ :=
  (comp.foldl (fun em p =>
    match lookupMD md p.1 with
    | some isos => em + (entLookup isos 0).1 * (p.2 : ℚ)
    | none =>
      em + isoMass md (isotopeParseD p.1).1 (isotopeParseD p.1).2 * (p.2 : ℚ)) 0)
    / (charge : ℚ)

/-- Accumulating update pcompout[k] += v (with insertion on KeyError), for
the rational-valued percent composition dict. -/
def addKeyQ : List (Key × ℚ) → Key → ℚ → List (Key × ℚ)
  | [], k, v => [(k, v)]
  | p :: r, k, v => if p.1 = k then (p.1, p.2 + v) :: r else p :: addKeyQ r k v

/-- Plain assignment pcompout[k] = v: overwrites the key if present. -/
def setKeyQ : List (Key × ℚ) → Key → ℚ → List (Key × ℚ)
  | [], k, v => [(k, v)]
  | p :: r, k, v => if p.1 = k then (k, v) :: r else p :: setKeyQ r k v

/-- Molecule.molecularweight (lines 516-540): sum exact mass times
abundance times count over the isotopes of each natural-abundance key
(skipping the aggregate entry 0), accumulating the same products into
pcompout; for an explicit isotope key the contribution is added to the
weight (line 534) but *assigned* to pcompout[ele] (line 535), overwriting
any accumulated contribution of that element.  Finally every pcompout
entry is divided by the molecular weight. -/
def molecularweight (md : MD) (comp : Comp) : ℚ × List (Key × ℚ) :=
  let st := comp.foldl (fun st p =>
    match lookupMD md p.1 with
    | some isos =>
      isos.foldl (fun st2 e =>
        if e.1 = 0 then st2
        else (st2.1 + e.2.1 * e.2.2 * (p.2 : ℚ),
              addKeyQ st2.2 p.1 (e.2.1 * e.2.2 * (p.2 : ℚ)))) st
    | none =>
      (st.1 + isoMass md (isotopeParseD p.1).1 (isotopeParseD p.1).2 * (p.2 : ℚ),
       setKeyQ st.2 (isotopeParseD p.1).1
         (isoMass md (isotopeParseD p.1).1 (isotopeParseD p.1).2 * (p.2 : ℚ))))
    (0, [])
  (st.1, st.2.map (fun p => (p.1, p.2 / st.1)))

/-- groupmasses (lines 138-155): split the ascending raw pattern into
groups, starting a new group whenever the gap to the next mass exceeds
delta. -/
def groupmasses (delta : ℚ) : List (ℚ × ℚ) → List (List (ℚ × ℚ))
  | [] => [[]]
  | [x] => [[x]]
  | x :: y :: rest =>
    match groupmasses delta (y :: rest) with
    | [] => [[x]]
    | g :: gs => if y.1 - x.1 > delta then [x] :: g :: gs else (x :: g) :: gs

/-- Summed intensity of a group. -/
def sumIntensity (g : List (ℚ × ℚ)) : ℚ := (g.map (fun p => p.2)).sum

/-- ipgrouptopoint (lines 157-165): intensity-weighted mean mass and summed
intensity of a group. -/
def ipgrouptopoint (g : List (ℚ × ℚ)) : ℚ × ℚ :=
  ((g.map (fun p => p.1 * p.2)).sum / sumIntensity g, sumIntensity g)

/-- Molecule.barisotopepattern (lines 133-180): group the raw pattern,
consolidate each group to its weighted point, then divide each mass by
abs(charge) and normalize the intensities to a maximum of 100. -/
def barisotopepattern (rawip : List (ℚ × ℚ)) (charge : Int) (delta : ℚ) :
    List (ℚ × ℚ) :=
  ((groupmasses delta rawip).map ipgrouptopoint).map
    (fun p => (p.1 / (charge.natAbs : ℚ),
      p.2 / maxIntensity ((groupmasses delta rawip).map ipgrouptopoint) * 100))

/-- Molecule.preciseexactmass (lines 602-605): the mass at the first index
whose bar intensity is exactly 100 (list.index raises if there is none,
modelled as none). -/
def preciseexactmass (barip : List (ℚ × ℚ)) : Option ℚ :=
  (barip.find? (fun p => decide (p.2 = 100))).map (fun p => p.1)

/-- The NIST mass dictionary entry for hydrogen (from the external
_nist_mass table): aggregate 1.00794, H1 1.00782503207 at 0.999885,
H2 2.0141017778 at 0.000115. -/
def mdH : MD :=
  [(['H'], [(0, (100794 : ℚ) / 100000, 1),
            (1, (100782503207 : ℚ) / 100000000000, (999885 : ℚ) / 1000000),
            (2, (20141017778 : ℚ) / 10000000000, (115 : ℚ) / 1000000)])]

/-- The NIST mass dictionary entry for carbon: aggregate 12.0107, C12 12.0
at 0.9893, C13 13.0033548378 at 0.0107. -/
def mdC : MD :=
  [(['C'], [(0, (120107 : ℚ) / 10000, 1),
            (12, (12 : ℚ), (9893 : ℚ) / 10000),
            (13, (130033548378 : ℚ) / 10000000000, (107 : ℚ) / 10000)])]

/-- Claim C2, counterexample: the raw isotope pattern of a single hydrogen
atom, at the default threshold 0.01 and default 7 tracked decimal places,
retains the deuterium peak at intensity 2300/199977 (about 0.0115), which
is far below 1.0 on the 100-maximum scale: the default discard fraction is
0.01 absolute intensity out of 100 (0.01 percent of the maximum), not 1
percent of the maximum. -/
theorem C2_counterexample :
    rawisotopepattern mdH [(['H'], 1)] (1 / 100) 7
      = [((1007825 : ℚ) / 1000000, 100), ((20141018 : ℚ) / 10000000, (2300 : ℚ) / 199977)] ∧
    ((2300 : ℚ) / 199977) < 1 ∧ (1 / 100 : ℚ) ≤ (2300 : ℚ) / 199977 := by
  decide

/-- Claim C3: with two atoms of the explicit isotope 13C in the
composition, the raw pattern engine shifts the initial mass by the
isotope's exact mass only once, while the code's own roughexactmass
multiplies that mass by the count 2; the two disagree, so the raw (and
hence bar) pattern mass is wrong for isotope keys with count greater
than 1. -/
theorem C3_isotope_key_shifts_once :
    rawisotopepattern mdC [(['1', '3', 'C'], 2)] (1 / 100) 7
      = [((130033548378 : ℚ) / 10000000000, 100)] ∧
    roughexactmass mdC [(['1', '3', 'C'], 2)] 1 = 2 * ((130033548378 : ℚ) / 10000000000) ∧
    ((130033548378 : ℚ) / 10000000000) ≠ 2 * ((130033548378 : ℚ) / 10000000000) := by
  decide

/-- Claim C9: on the composition with one natural-abundance carbon and one
explicit 13C, the percent composition reported for C is the isotope key's
contribution alone divided by the weight (the line-535 assignment
overwrites the accumulated natural-abundance contribution), not the
element's total contribution divided by the weight, which would be 1 here
since C is the only element. -/
theorem C9_pcomp_overwrites :
    (molecularweight mdC [(['C'], 1), (['1', '3', 'C'], 1)]).1
      = (2501409073456446 : ℚ) / 100000000000000 ∧
    (molecularweight mdC [(['C'], 1), (['1', '3', 'C'], 1)]).2
      = [(['C'], (1300335483780000 : ℚ) / 2501409073456446)] ∧
    ((1300335483780000 : ℚ) / 2501409073456446) ≠ 1 := by
  decide

/- Lemmas about maxIntensity. -/

theorem le_foldl_max (l : List (ℚ × ℚ)) (a : ℚ) :
    a ≤ l.foldl (fun b q => max b q.2) a := by
  induction l generalizing a with
  | nil => exact le_refl a
  | cons p r ih => exact le_trans (le_max_left a p.2) (ih (max a p.2))

theorem mem_le_foldl_max (l : List (ℚ × ℚ)) (a : ℚ) :
    ∀ q ∈ l, q.2 ≤ l.foldl (fun b q => max b q.2) a := by
  induction l generalizing a with
  | nil => intro q hq; exact absurd hq (List.not_mem_nil q)
  | cons p r ih =>
    intro q hq
    rcases List.mem_cons.mp hq with h | h
    · subst h
      exact le_trans (le_max_right a q.2) (le_foldl_max r _)
    · exact ih (max a p.2) q h

theorem foldl_max_cases (l : List (ℚ × ℚ)) (a : ℚ) :
    l.foldl (fun b q => max b q.2) a = a ∨
      ∃ q ∈ l, l.foldl (fun b q => max b q.2) a = q.2 := by
  induction l generalizing a with
  | nil => exact Or.inl rfl
  | cons p r ih =>
    rcases ih (max a p.2) with h | ⟨q, hq, he⟩
    · rcases max_choice a p.2 with hm | hm
      · left
        rw [List.foldl_cons, h, hm]
      · right
        exact ⟨p, List.mem_cons_self _ _, by rw [List.foldl_cons, h, hm]⟩
    · right
      exact ⟨q, List.mem_cons_of_mem _ hq, by rw [List.foldl_cons]; exact he⟩

theorem maxIntensity_mem {l : List (ℚ × ℚ)} (h : l ≠ []) :
    ∃ q ∈ l, maxIntensity l = q.2 := by
  match l with
  | [] => exact absurd rfl h
  | p :: r =>
    rcases foldl_max_cases r p.2 with h1 | ⟨q, hq, he⟩
    · exact ⟨p, List.mem_cons_self _ _, h1⟩
    · exact ⟨q, List.mem_cons_of_mem _ hq, he⟩

theorem le_maxIntensity {l : List (ℚ × ℚ)} {q : ℚ × ℚ} (hq : q ∈ l) :
    q.2 ≤ maxIntensity l := by
  match l with
  | [] => exact absurd hq (List.not_mem_nil q)
  | p :: r =>
    rcases List.mem_cons.mp hq with h | h
    · subst h
      exact le_foldl_max r q.2
    · exact mem_le_foldl_max r p.2 q h

theorem maxIntensity_le {l : List (ℚ × ℚ)} {c : ℚ} (hne : l ≠ [])
    (h : ∀ q ∈ l, q.2 ≤ c) : maxIntensity l ≤ c := by
  obtain ⟨q, hq, he⟩ := maxIntensity_mem hne
  rw [he]
  exact h q hq

theorem maxIntensity_eq {l : List (ℚ × ℚ)} {c : ℚ}
    (hc : ∃ q ∈ l, q.2 = c) (hle : ∀ q ∈ l, q.2 ≤ c) : maxIntensity l = c := by
  obtain ⟨q, hq, he⟩ := hc
  exact le_antisymm (maxIntensity_le (List.ne_nil_of_mem hq) hle)
    (he ▸ le_maxIntensity hq)

/- Positivity lemmas about addvalue and the convolution folds. -/

theorem addvalue_nonneg : ∀ (sp : List (ℚ × ℚ)) (m i : ℚ),
    (∀ p ∈ sp, 0 ≤ p.2) → 0 ≤ i → ∀ p ∈ addvalue sp m i, 0 ≤ p.2 := by
  intro sp
  induction sp with
  | nil =>
    intro m i _ hi p hp
    rcases List.mem_cons.mp hp with h | h
    · subst h; exact hi
    · exact absurd h (List.not_mem_nil p)
  | cons q r ih =>
    intro m i h hi p hp
    obtain ⟨m', i'⟩ := q
    rcases lt_trichotomy m m' with hlt | heq | hgt
    · rw [addvalue, if_pos hlt] at hp
      rcases List.mem_cons.mp hp with h1 | h1
      · subst h1; exact hi
      · exact h p h1
    · rw [addvalue, if_neg (by rw [heq]; exact lt_irrefl m'), if_pos heq] at hp
      rcases List.mem_cons.mp hp with h1 | h1
      · subst h1
        exact add_nonneg (h (m', i') (List.mem_cons_self _ _)) hi
      · exact h p (List.mem_cons_of_mem _ h1)
    · rw [addvalue, if_neg (not_lt_of_gt hgt), if_neg (ne_of_gt hgt)] at hp
      rcases List.mem_cons.mp hp with h1 | h1
      · subst h1; exact h (m', i') (List.mem_cons_self _ _)
      · exact ih m i (fun p hp => h p (List.mem_cons_of_mem _ hp)) hi p h1

theorem addvalue_exists_pos : ∀ (sp : List (ℚ × ℚ)) (m i : ℚ),
    (∀ p ∈ sp, 0 ≤ p.2) → 0 < i → ∃ p ∈ addvalue sp m i, 0 < p.2 := by
  intro sp
  induction sp with
  | nil =>
    intro m i _ hi
    exact ⟨(m, i), List.mem_cons_self _ _, hi⟩
  | cons q r ih =>
    intro m i h hi
    obtain ⟨m', i'⟩ := q
    rcases lt_trichotomy m m' with hlt | heq | hgt
    · rw [addvalue, if_pos hlt]
      exact ⟨(m, i), List.mem_cons_self _ _, hi⟩
    · rw [addvalue, if_neg (by rw [heq]; exact lt_irrefl m'), if_pos heq]
      refine ⟨(m', i' + i), List.mem_cons_self _ _, ?_⟩
      have := h (m', i') (List.mem_cons_self _ _)
      simp only at this ⊢
      linarith
    · rw [addvalue, if_neg (not_lt_of_gt hgt), if_neg (ne_of_gt hgt)]
      obtain ⟨p, hp, hppos⟩ := ih m i (fun p hp => h p (List.mem_cons_of_mem _ hp)) hi
      exact ⟨p, List.mem_cons_of_mem _ hp, hppos⟩

theorem addvalue_keep_pos : ∀ (sp : List (ℚ × ℚ)) (m i : ℚ),
    (∃ p ∈ sp, 0 < p.2) → 0 ≤ i → ∃ p ∈ addvalue sp m i, 0 < p.2 := by
  intro sp
  induction sp with
  | nil =>
    intro m i h _
    obtain ⟨p, hp, _⟩ := h
    exact absurd hp (List.not_mem_nil p)
  | cons q r ih =>
    intro m i h hi
    obtain ⟨m', i'⟩ := q
    obtain ⟨w, hw, hwpos⟩ := h
    rcases lt_trichotomy m m' with hlt | heq | hgt
    · rw [addvalue, if_pos hlt]
      exact ⟨w, List.mem_cons_of_mem _ hw, hwpos⟩
    · rw [addvalue, if_neg (by rw [heq]; exact lt_irrefl m'), if_pos heq]
      rcases List.mem_cons.mp hw with h1 | h1
      · refine ⟨(m', i' + i), List.mem_cons_self _ _, ?_⟩
        have : w.2 = i' := by rw [h1]
        simp only at this ⊢
        linarith
      · exact ⟨w, List.mem_cons_of_mem _ h1, hwpos⟩
    · rw [addvalue, if_neg (not_lt_of_gt hgt), if_neg (ne_of_gt hgt)]
      rcases List.mem_cons.mp hw with h1 | h1
      · exact ⟨w, by rw [h1]; exact List.mem_cons_self _ _, hwpos⟩
      · obtain ⟨p, hp, hppos⟩ := ih m i ⟨w, h1, hwpos⟩ hi
        exact ⟨p, List.mem_cons_of_mem _ hp, hppos⟩

theorem foldAdd_nonneg : ∀ (out sp : List (ℚ × ℚ)) (r ab : ℚ),
    (∀ p ∈ sp, 0 ≤ p.2) → 0 ≤ ab → (∀ p ∈ out, 0 ≤ p.2) →
    ∀ p ∈ out.foldl (fun sp2 q => addvalue sp2 (q.1 + r) (q.2 * ab)) sp, 0 ≤ p.2 := by
  intro out
  induction out with
  | nil => intro sp r ab hsp _ _ p hp; exact hsp p hp
  | cons q rest ih =>
    intro sp r ab hsp hab hout
    rw [List.foldl_cons]
    exact ih _ r ab
      (addvalue_nonneg sp _ _ hsp
        (mul_nonneg (hout q (List.mem_cons_self _ _)) hab))
      hab (fun p hp => hout p (List.mem_cons_of_mem _ hp))

theorem foldAdd_keep_pos : ∀ (out sp : List (ℚ × ℚ)) (r ab : ℚ),
    (∃ p ∈ sp, 0 < p.2) → 0 ≤ ab → (∀ p ∈ out, 0 ≤ p.2) →
    ∃ p ∈ out.foldl (fun sp2 q => addvalue sp2 (q.1 + r) (q.2 * ab)) sp, 0 < p.2 := by
  intro out
  induction out with
  | nil => intro sp r ab h _ _; exact h
  | cons q rest ih =>
    intro sp r ab h hab hout
    rw [List.foldl_cons]
    exact ih _ r ab
      (addvalue_keep_pos sp _ _ h
        (mul_nonneg (hout q (List.mem_cons_self _ _)) hab))
      hab (fun p hp => hout p (List.mem_cons_of_mem _ hp))

theorem foldAdd_pos : ∀ (out sp : List (ℚ × ℚ)) (r ab : ℚ),
    out ≠ [] → (∀ p ∈ out, 0 < p.2) → 0 < ab → (∀ p ∈ sp, 0 ≤ p.2) →
    ∃ p ∈ out.foldl (fun sp2 q => addvalue sp2 (q.1 + r) (q.2 * ab)) sp, 0 < p.2 := by
  intro out sp r ab hne hout hab hsp
  match out with
  | [] => exact absurd rfl hne
  | q :: rest =>
    rw [List.foldl_cons]
    apply foldAdd_keep_pos rest _ r ab
    · exact addvalue_exists_pos sp _ _ hsp
        (mul_pos (hout q (List.mem_cons_self _ _)) hab)
    · exact le_of_lt hab
    · exact fun p hp => le_of_lt (hout p (List.mem_cons_of_mem _ hp))

theorem isosFold_pos (dec : Nat) (out : List (ℚ × ℚ))
    (hne : out ≠ []) (hout : ∀ p ∈ out, 0 < p.2) :
    ∀ (isos : List (Nat × ℚ × ℚ)) (sp : List (ℚ × ℚ)),
    (∀ p ∈ sp, 0 ≤ p.2) → (∀ e ∈ isos, 0 ≤ e.2.2) →
    ((∃ p ∈ sp, 0 < p.2) ∨ ∃ e ∈ isos, e.1 ≠ 0 ∧ e.2.2 ≠ 0) →
    ∃ p ∈ isos.foldl (fun sp e =>
        if e.1 ≠ 0 ∧ e.2.2 ≠ 0 then
          out.foldl (fun sp2 q => addvalue sp2 (q.1 + roundTo dec e.2.1) (q.2 * e.2.2)) sp
        else sp) sp, 0 < p.2 := by
  intro isos
  induction isos with
  | nil =>
    intro sp _ _ hd
    rcases hd with h | ⟨e, he, _⟩
    · exact h
    · exact absurd he (List.not_mem_nil e)
  | cons e rest ih =>
    intro sp hsp hiso hd
    rw [List.foldl_cons]
    by_cases hc : e.1 ≠ 0 ∧ e.2.2 ≠ 0
    · rw [if_pos hc]
      have hab : 0 < e.2.2 :=
        lt_of_le_of_ne (hiso e (List.mem_cons_self _ _)) (Ne.symm hc.2)
      refine ih _ ?_ (fun e' he' => hiso e' (List.mem_cons_of_mem _ he')) (Or.inl ?_)
      · exact foldAdd_nonneg out sp _ _ hsp (le_of_lt hab) (fun p hp => le_of_lt (hout p hp))
      · exact foldAdd_pos out sp _ _ hne hout hab hsp
    · rw [if_neg hc]
      refine ih sp hsp (fun e' he' => hiso e' (List.mem_cons_of_mem _ he')) ?_
      rcases hd with h | ⟨e', he', hc'⟩
      · exact Or.inl h
      · rcases List.mem_cons.mp he' with h1 | h1
        · exact absurd (h1 ▸ hc') hc
        · exact Or.inr ⟨e', h1, hc'⟩

/-- After normalizing to a ceiling of 100 and thresholding, the maximum is
exactly 100 and every retained entry is at least the threshold. -/
theorem normThresh_spec (l : List (ℚ × ℚ)) (thresh : ℚ)
    (hpos : ∃ p ∈ l, 0 < p.2) (ht : thresh ≤ 100) :
    maxIntensity (thresholdSpec thresh (normalizeSpec 100 l)) = 100 ∧
    ∀ p ∈ thresholdSpec thresh (normalizeSpec 100 l), thresh ≤ p.2 := by
  obtain ⟨w, hw, hwpos⟩ := hpos
  have hne : l ≠ [] := List.ne_nil_of_mem hw
  have hmx : 0 < maxIntensity l := lt_of_lt_of_le hwpos (le_maxIntensity hw)
  obtain ⟨q, hq, hqe⟩ := maxIntensity_mem hne
  have hnorm_le : ∀ p ∈ normalizeSpec 100 l, p.2 ≤ 100 := by
    intro p hp
    obtain ⟨p0, hp0, rfl⟩ := List.mem_map.mp hp
    show p0.2 / maxIntensity l * 100 ≤ 100
    have h1 : p0.2 / maxIntensity l ≤ 1 := (div_le_one hmx).mpr (le_maxIntensity hp0)
    have h2 := mul_le_mul_of_nonneg_right h1 (by norm_num : (0 : ℚ) ≤ 100)
    simpa using h2
  have hq100 : ((q.1, q.2 / maxIntensity l * 100) : ℚ × ℚ).2 = 100 := by
    have : q.2 / maxIntensity l = 1 := by
      rw [hqe]
      exact div_self (ne_of_gt (hqe ▸ hmx))
    simp only [this]
    norm_num
  have hqmem : ((q.1, q.2 / maxIntensity l * 100) : ℚ × ℚ) ∈ normalizeSpec 100 l :=
    List.mem_map.mpr ⟨q, hq, rfl⟩
  have hsurv : ((q.1, q.2 / maxIntensity l * 100) : ℚ × ℚ) ∈
      thresholdSpec thresh (normalizeSpec 100 l) := by
    apply List.mem_filter.mpr
    refine ⟨hqmem, ?_⟩
    rw [hq100]
    exact decide_eq_true ht
  constructor
  · apply maxIntensity_eq ⟨_, hsurv, hq100⟩
    intro p hp
    exact hnorm_le p (List.mem_of_mem_filter hp)
  · intro p hp
    exact of_decide_eq_true (List.mem_filter.mp hp).2

/-- Claim C2, amended: after each single atom's convolution step the
spectrum is renormalized so its tallest retained peak is exactly 100, and
every retained entry has intensity at least the absolute discard threshold
(default 0.01 on the 100-maximum scale, i.e. 0.01 percent of the maximum,
not 1 percent), provided the incoming pattern is nonempty with positive
intensities and the element has an isotope with nonzero abundance. -/
theorem C2_convolve_step (dec : Nat) (thresh : ℚ) (isos : List (Nat × ℚ × ℚ))
    (out : List (ℚ × ℚ))
    (h1 : out ≠ []) (h2 : ∀ p ∈ out, 0 < p.2) (h3 : ∀ e ∈ isos, 0 ≤ e.2.2)
    (h4 : ∃ e ∈ isos, e.1 ≠ 0 ∧ e.2.2 ≠ 0) (_h5 : 0 < thresh) (h6 : thresh ≤ 100) :
    maxIntensity (convolveAtom dec thresh isos out) = 100 ∧
    ∀ p ∈ convolveAtom dec thresh isos out, thresh ≤ p.2 := by
  have hpos := isosFold_pos dec out h1 h2 isos []
    (fun p hp => absurd hp (List.not_mem_nil p)) h3 (Or.inr h4)
  exact normThresh_spec _ thresh hpos h6

/-- Witness for C2_convolve_step: one atom of a two-isotope element with
abundances one half each, starting from the initial spectrum. -/
theorem C2_convolve_step_witness :
    maxIntensity (convolveAtom 7 (1 / 100) [(1, 1, 1 / 2), (2, 2, 1 / 2)] [(0, 100)]) = 100 ∧
    ∀ p ∈ convolveAtom 7 (1 / 100) [(1, 1, 1 / 2), (2, 2, 1 / 2)] [(0, 100)],
      (1 / 100 : ℚ) ≤ p.2 :=
  C2_convolve_step 7 (1 / 100) [(1, 1, 1 / 2), (2, 2, 1 / 2)] [(0, 100)]
    (by decide) (by decide) (by decide) (by decide) (by norm_num) (by norm_num)

/- Lemmas about the bar pattern construction. -/

theorem sumIntensity_nonneg {g : List (ℚ × ℚ)} (h : ∀ p ∈ g, 0 ≤ p.2) :
    0 ≤ sumIntensity g := by
  induction g with
  | nil => simp [sumIntensity]
  | cons p r ih =>
    have : sumIntensity (p :: r) = p.2 + sumIntensity r := by simp [sumIntensity]
    rw [this]
    exact add_nonneg (h p (List.mem_cons_self _ _))
      (ih (fun q hq => h q (List.mem_cons_of_mem _ hq)))

theorem sumIntensity_pos {g : List (ℚ × ℚ)} (hne : g ≠ [])
    (h : ∀ p ∈ g, 0 < p.2) : 0 < sumIntensity g := by
  match g with
  | [] => exact absurd rfl hne
  | p :: r =>
    have he : sumIntensity (p :: r) = p.2 + sumIntensity r := by simp [sumIntensity]
    rw [he]
    have h1 := h p (List.mem_cons_self _ _)
    have h2 := sumIntensity_nonneg (fun q hq => le_of_lt (h q (List.mem_cons_of_mem _ hq)))
    linarith

theorem groupmasses_ne_nil (delta : ℚ) (l : List (ℚ × ℚ)) :
    groupmasses delta l ≠ [] := by
  match l with
  | [] => simp [groupmasses]
  | [x] => simp [groupmasses]
  | x :: y :: rest =>
    rw [groupmasses]
    rcases hg : groupmasses delta (y :: rest) with _ | ⟨g, gs⟩
    · simp
    · by_cases hgap : y.1 - x.1 > delta
      · simp [hgap]
      · simp [hgap]

theorem groupmasses_mem_ne_nil (delta : ℚ) :
    ∀ (l : List (ℚ × ℚ)), l ≠ [] → ∀ g ∈ groupmasses delta l, g ≠ [] := by
  intro l
  induction l with
  | nil => intro h; exact absurd rfl h
  | cons x xs ih =>
    intro _ g hg
    match xs with
    | [] =>
      rw [groupmasses] at hg
      rcases List.mem_cons.mp hg with h1 | h1
      · subst h1; simp
      · exact absurd h1 (List.not_mem_nil g)
    | y :: rest =>
      rcases hgr : groupmasses delta (y :: rest) with _ | ⟨g0, gs⟩
      · exact absurd hgr (groupmasses_ne_nil delta (y :: rest))
      · simp only [groupmasses, hgr] at hg
        have ihg : ∀ g' ∈ g0 :: gs, g' ≠ [] := by
          rw [← hgr]
          exact ih (by simp)
        by_cases hgap : y.1 - x.1 > delta
        · rw [if_pos hgap] at hg
          rcases List.mem_cons.mp hg with h1 | h1
          · subst h1; simp
          · exact ihg g h1
        · rw [if_neg hgap] at hg
          rcases List.mem_cons.mp hg with h1 | h1
          · subst h1; simp
          · exact ihg g (List.mem_cons_of_mem _ h1)

theorem groupmasses_sub (delta : ℚ) :
    ∀ (l : List (ℚ × ℚ)), ∀ g ∈ groupmasses delta l, ∀ p ∈ g, p ∈ l := by
  intro l
  induction l with
  | nil =>
    intro g hg p hp
    rw [groupmasses] at hg
    rcases List.mem_cons.mp hg with h1 | h1
    · subst h1; exact absurd hp (List.not_mem_nil p)
    · exact absurd h1 (List.not_mem_nil g)
  | cons x xs ih =>
    intro g hg p hp
    match xs with
    | [] =>
      rw [groupmasses] at hg
      rcases List.mem_cons.mp hg with h1 | h1
      · subst h1
        rcases List.mem_cons.mp hp with h2 | h2
        · subst h2; exact List.mem_cons_self _ _
        · exact absurd h2 (List.not_mem_nil p)
      · exact absurd h1 (List.not_mem_nil g)
    | y :: rest =>
      rcases hgr : groupmasses delta (y :: rest) with _ | ⟨g0, gs⟩
      · exact absurd hgr (groupmasses_ne_nil delta (y :: rest))
      · simp only [groupmasses, hgr] at hg
        have ihsub : ∀ g' ∈ g0 :: gs, ∀ q ∈ g', q ∈ y :: rest := by
          rw [← hgr]
          exact ih
        by_cases hgap : y.1 - x.1 > delta
        · rw [if_pos hgap] at hg
          rcases List.mem_cons.mp hg with h1 | h1
          · subst h1
            rcases List.mem_cons.mp hp with h2 | h2
            · subst h2; exact List.mem_cons_self _ _
            · exact absurd h2 (List.not_mem_nil p)
          · exact List.mem_cons_of_mem _ (ihsub g h1 p hp)
        · rw [if_neg hgap] at hg
          rcases List.mem_cons.mp hg with h1 | h1
          · subst h1
            rcases List.mem_cons.mp hp with h2 | h2
            · subst h2; exact List.mem_cons_self _ _
            · exact List.mem_cons_of_mem _ (ihsub g0 (List.mem_cons_self _ _) p h2)
          · exact List.mem_cons_of_mem _ (ihsub g (List.mem_cons_of_mem _ h1) p hp)

/-- Claim C8: for every nonempty raw pattern with positive intensities and
nonzero charge, the bar pattern contains an entry whose intensity is
exactly 100, and the reported precise exact mass is the mass of such an
entry. -/
theorem C8_exact_mass (rawip : List (ℚ × ℚ)) (z : Int)
    (h1 : rawip ≠ []) (h2 : ∀ p ∈ rawip, 0 < p.2) (_hz : z ≠ 0) :
    ∃ m, preciseexactmass (barisotopepattern rawip z (1 / 2)) = some m ∧
      (m, 100) ∈ barisotopepattern rawip z (1 / 2) := by
  have hptspos : ∀ q ∈ (groupmasses (1 / 2) rawip).map ipgrouptopoint, 0 < q.2 := by
    intro q hq
    obtain ⟨g, hg, rfl⟩ := List.mem_map.mp hq
    show 0 < sumIntensity g
    exact sumIntensity_pos (groupmasses_mem_ne_nil (1 / 2) rawip h1 g hg)
      (fun p hp => h2 p (groupmasses_sub (1 / 2) rawip g hg p hp))
  have hptsne : (groupmasses (1 / 2) rawip).map ipgrouptopoint ≠ [] := by
    intro hc
    exact groupmasses_ne_nil (1 / 2) rawip (List.map_eq_nil_iff.mp hc)
  obtain ⟨q, hq, hqe⟩ := maxIntensity_mem hptsne
  have hmx : 0 < maxIntensity ((groupmasses (1 / 2) rawip).map ipgrouptopoint) :=
    hqe ▸ hptspos q hq
  have hq100 : q.2 / maxIntensity ((groupmasses (1 / 2) rawip).map ipgrouptopoint) * 100
      = 100 := by
    rw [hqe, div_self (ne_of_gt (hqe ▸ hmx))]
    norm_num
  have hmem : ((q.1 / (z.natAbs : ℚ), 100) : ℚ × ℚ) ∈ barisotopepattern rawip z (1 / 2) := by
    unfold barisotopepattern
    apply List.mem_map.mpr
    exact ⟨q, hq, by rw [hq100]⟩
  have hfound : ((barisotopepattern rawip z (1 / 2)).find?
      (fun p => decide (p.2 = 100))).isSome := by
    apply List.find?_isSome.mpr
    exact ⟨_, hmem, by simp⟩
  obtain ⟨q0, hq0⟩ := Option.isSome_iff_exists.mp hfound
  have hq0mem := List.mem_of_find?_eq_some hq0
  have hq0val : q0.2 = 100 := by simpa using List.find?_some hq0
  refine ⟨q0.1, ?_, ?_⟩
  · rw [preciseexactmass, hq0]
    rfl
  · have : q0 = (q0.1, 100) := by
      rw [← hq0val]
    rw [← this]
    exact hq0mem

/-- Witness for C8_exact_mass at the raw pattern with peaks (10, 100) and
(11, 5), charge 1. -/
theorem C8_exact_mass_witness :
    ∃ m, preciseexactmass (barisotopepattern [((10 : ℚ), (100 : ℚ)), (11, 5)] 1 (1 / 2)) = some m ∧
      (m, 100) ∈ barisotopepattern [((10 : ℚ), (100 : ℚ)), (11, 5)] 1 (1 / 2) :=
  C8_exact_mass [((10 : ℚ), (100 : ℚ)), (11, 5)] 1 (by decide) (by decide) (by decide)

/- The formula parser, Molecule.composition (lines 270-420). -/

/-- The start brackets ( { [ of the parser. -/
def isSbrack (c : Char) : Bool :=
  decide (c = '(' ∨ c = Char.ofNat 123 ∨ c = '[')

/-- The close bracket matching a start bracket (ebrack at the index of the
start bracket in sbrack). -/
def closeOf (c : Char) : Char :=
  if c = '(' then ')' else if c = Char.ofNat 123 then Char.ofNat 125 else ']'

/-- The close-bracket scan of bracket (lines 303-330): walk the characters
after the open bracket keeping a nesting counter, returning the enclosed
block and the remainder after the close bracket; an unterminated bracket
is the raised ValueError, modelled as none. -/
def bscan (sb eb : Char) : List Char → Nat → Option (List Char × List Char)
  | [], _ => none
  | c :: rest, nest =>
    if c = sb then
      match bscan sb eb rest (nest + 1) with
      | some (b, r) => some (c :: b, r)
      | none => none
    else if c = eb then
      match nest with
      | 0 => some ([], rest)
      | n + 1 =>
        match bscan sb eb rest n with
        | some (b, r) => some (c :: b, r)
        | none => none
    else
      match bscan sb eb rest nest with
      | some (b, r) => some (c :: b, r)
      | none => none

/-- interpret (lines 276-297): a block starting with a digit is an isotope
key with count 1; otherwise the first character starts the element symbol,
the remaining digits accumulate into the count (default 1) and the
remaining non-digits extend the symbol. -/
def interpret (block : List Char) : Comp :=
  match block with
  | [] => []
  | c :: rest =>
    if isDigitC c then [(block, 1)]
    else
      [(c :: rest.filter (fun d => !(isDigitC d)),
        if (rest.filter isDigitC).isEmpty then 1
        else (strToNat (rest.filter isDigitC) : Int))]

/-- The abbreviation table _formabbrvs.abbrvs (external): abbreviation key
to constituent composition. -/
abbrev Abbrvs := List (Key × Comp)

def lookupA : Abbrvs → Key → Option Comp
  | [], _ => none
  | (k', v) :: r, k => if k' = k then some v else lookupA r k

/-- abbreviations (lines 373-389): rebuild the composition, expanding every
key found in the abbreviation table into its constituents scaled by the
key's count, and accumulating everything else unchanged. -/
def abbreviations (abbrvs : Abbrvs) (dic : Comp) : Comp :=
  dic.foldl (fun ct p =>
    match lookupA abbrvs p.1 with
    | some sub => sub.foldl (fun ct2 q => addKey ct2 q.1 (q.2 * p.2)) ct
    | none => addKey ct p.1 p.2) []

/- chewformula / bracket (lines 299-371), with the charge state threaded
   through explicitly: the digit branch with no letters overwrites
   self.ks via interpretcharge (line 370); each such overwrite is also
   recorded in an event list so that the absence of charge side effects
   can be stated.  The Nat fuel only drives structural recursion: every
   recursive call consumes input characters, so the fuel supplied by
   composition is never exhausted on terminating inputs (a Python
   non-termination or crash is modelled as none either way). -/

/-- The bracket multiplier: the digits after the close bracket, defaulting
to 1 when absent (lines 323-336). -/
def bnumOf (after : List Char) : Int :=
  if (after.takeWhile isDigitC).isEmpty then 1
  else (strToNat (after.takeWhile isDigitC) : Int)

mutual

def chewformula : Nat → List Char → KS → List KS →
    Option (List Char × Comp × KS × List KS)
  | 0, _, _, _ => none
  | fuel + 1, formula, ks, evs =>
    match formula with
    | [] => none
    | c :: rest =>
      if isUpperC c then
        let block := c :: rest.takeWhile (fun d => !(isUpperC d) && !(isSbrack d))
        some (formula.drop block.length, interpret block, ks, evs)
      else if isSbrack c then bracket fuel formula ks evs
      else if isDigitC c then
        if formula.any isAlphaC then some ([], [(formula, 1)], ks, evs)
        else
          match interpretcharge (ChargeIn.strC formula) with
          | some v => some ([], [], v, evs ++ [v])
          | none => none
      else none

def bracket : Nat → List Char → KS → List KS →
    Option (List Char × Comp × KS × List KS)
  | 0, _, _, _ => none
  | fuel + 1, form, ks, evs =>
    match form with
    | [] => none
    | c :: rest =>
      match bscan c (closeOf c) rest 0 with
      | none => none
      | some (block, after) =>
        match bracketLoop fuel block (bnumOf after) [] ks evs with
        | none => none
        | some (outdict, ks', evs') =>
          some (after.dropWhile isDigitC, outdict, ks', evs')

def bracketLoop : Nat → List Char → Int → Comp → KS → List KS →
    Option (Comp × KS × List KS)
  | 0, _, _, _, _, _ => none
  | fuel + 1, block, bnum, outdict, ks, evs =>
    if block.isEmpty then some (outdict, ks, evs)
    else
      match chewformula fuel block ks evs with
      | none => none
      | some (ftemp, td, ks', evs') =>
        bracketLoop fuel ftemp bnum
          (td.foldl (fun acc p => addKey acc p.1 (p.2 * bnum)) outdict) ks' evs'

end

/-- The main chew loop of composition (lines 408-416). -/
def compLoop : Nat → List Char → Comp → KS → List KS →
    Option (Comp × KS × List KS)
  | 0, _, _, _, _ => none
  | fuel + 1, formula, comp, ks, evs =>
    if formula.isEmpty then some (comp, ks, evs)
    else
      match chewformula fuel formula ks evs with
      | none => none
      | some (ftemp, nomdict, ks', evs') =>
        compLoop fuel ftemp (nomdict.foldl (fun acc p => addKey acc p.1 p.2) comp) ks' evs'

/-- Molecule.composition (lines 270-420): chew through the formula
accumulating the element blocks, then expand abbreviations.  Returns the
composition, the final charge state and the list of charge overwrites.
The fuel bound 2*length+2 is never reached: every parsing step consumes
at least one character for at most two units of fuel. -/
def composition (abbrvs : Abbrvs) (f : List Char) (ks : KS) :
    Option (Comp × KS × List KS) :=
  match compLoop (2 * f.length + 2) f [] ks [] with
  | some (c, ks', evs) => some (abbreviations abbrvs c, ks', evs)
  | none => none

/- Canonical formula generation, Molecule.molecularformula (lines 494-514). -/

/-- Decimal digit rendering of a positive integer, modelling Python str();
the fuel (at least the digit count) drives structural recursion. -/
def natStrAux : Nat → Nat → List Char
  | 0, _ => []
  | fuel + 1, n =>
    if n < 10 then [Char.ofNat (48 + n)]
    else natStrAux fuel (n / 10) ++ [Char.ofNat (48 + n % 10)]

/-- Python str(n) for a nonnegative integer. -/
def natStr (n : Nat) : List Char := natStrAux (n + 1) n

/-- One rendered formula block: the key, followed by the count when it
exceeds one. -/
def renderBlock (p : Key × Int) : List Char :=
  p.1 ++ (if p.2 > 1 then natStr p.2.toNat else [])

/-- Rendering a list of blocks in order. -/
def renderBlocks : List (Key × Int) → List Char
  | [] => []
  | p :: r => renderBlock p ++ renderBlocks r

/-- Lexicographic comparison of keys by character code, modelling Python
string comparison inside sorted(). -/
def keyLe : List Char → List Char → Bool
  | [], _ => true
  | _ :: _, [] => false
  | a :: as, b :: bs =>
    if a.toNat < b.toNat then true
    else if a.toNat = b.toNat then keyLe as bs
    else false

/-- The sorting relation of sorted(self.comp.items()): compare the keys
(the keys of a dict are distinct, so the tuple tiebreak never fires). -/
def keyPairLe (p q : Key × Int) : Prop := keyLe p.1 q.1 = true

instance : DecidableRel keyPairLe := fun _ _ => Bool.decEq _ _

/-- Molecule.molecularformula (lines 494-514): emit the carbon block if
present, then the hydrogen block if present (independently of carbon),
then every other key in sorted order.  sorted() is modelled by a stable
insertion sort, which agrees with any correct sort since keys are
distinct. -/
def molecularformula (c : Comp) : List Char :=
  (List.insertionSort keyPairLe c).foldl
    (fun out p => if p.1 = ['C'] ∨ p.1 = ['H'] then out else out ++ renderBlock p)
    ((match lookupC c ['C'] with
      | some v => renderBlock (['C'], v)
      | none => []) ++
     (match lookupC c ['H'] with
      | some v => renderBlock (['H'], v)
      | none => []))

/-- Claim C4, amended: parsing "B(OH)4" yields the composition B1 O4 H4 as
claimed, but the canonical formula is "H4BO4": the code emits the hydrogen
block before the alphabetical tail whenever hydrogen is present, with no
carbon-presence condition. -/
theorem C4_parse_and_formula :
    composition [] ['B', '(', 'O', 'H', ')', '4'] (1, '+')
      = some ([(['B'], 1), (['O'], 4), (['H'], 4)], (1, '+'), []) ∧
    molecularformula [(['B'], 1), (['O'], 4), (['H'], 4)]
      = ['H', '4', 'B', 'O', '4'] := by
  decide

/-- Claim C4, counterexample: the canonical formula generated for the
composition parsed from "B(OH)4" is not "BH4O4" (B first), as the claim
states, but "H4BO4". -/
theorem C4_counterexample :
    molecularformula [(['B'], 1), (['O'], 4), (['H'], 4)] = ['H', '4', 'B', 'O', '4'] ∧
    (['H', '4', 'B', 'O', '4'] : List Char) ≠ ['B', 'H', '4', 'O', '4'] := by
  decide

/-- Claim C6, counterexample: parsing the formula "2-" (an inline charge
specifier) overwrites the stored charge configuration from the default
(1, '+') to (2, '-'): parsing is not free of side effects on the
configuration when an inline charge specifier is present. -/
theorem C6_counterexample :
    composition [] ['2', '-'] (1, '+') = some ([], (2, '-'), [(2, '-')]) ∧
    ((2, '-') : KS) ≠ ((1, '+') : KS) := by
  decide

/-- The charge-state frame invariant of the parser: the event list only
grows, and when no charge overwrite event is recorded the charge state is
returned unchanged, across all three mutually recursive parsing functions
and the main loop. -/
theorem parser_charge_frame : ∀ fuel : Nat,
    (∀ formula ks evs out, chewformula fuel formula ks evs = some out →
      ∃ d, out.2.2.2 = evs ++ d ∧ (d = [] → out.2.2.1 = ks)) ∧
    (∀ form ks evs out, bracket fuel form ks evs = some out →
      ∃ d, out.2.2.2 = evs ++ d ∧ (d = [] → out.2.2.1 = ks)) ∧
    (∀ block bnum outdict ks evs out, bracketLoop fuel block bnum outdict ks evs = some out →
      ∃ d, out.2.2 = evs ++ d ∧ (d = [] → out.2.1 = ks)) ∧
    (∀ formula comp ks evs out, compLoop fuel formula comp ks evs = some out →
      ∃ d, out.2.2 = evs ++ d ∧ (d = [] → out.2.1 = ks)) := by
  intro fuel
  induction fuel with
  | zero =>
    refine ⟨?_, ?_, ?_, ?_⟩
    · intro formula ks evs out h
      simp [chewformula] at h
    · intro form ks evs out h
      simp [bracket] at h
    · intro block bnum outdict ks evs out h
      simp [bracketLoop] at h
    · intro formula comp ks evs out h
      simp [compLoop] at h
  | succ fuel ih =>
    obtain ⟨ihchew, ihbracket, ihloop, ihcomp⟩ := ih
    have hchew : ∀ formula ks evs out, chewformula (fuel + 1) formula ks evs = some out →
        ∃ d, out.2.2.2 = evs ++ d ∧ (d = [] → out.2.2.1 = ks) := by
      intro formula ks evs out h
      match formula with
      | [] => exact absurd h (by simp [chewformula])
      | c :: rest =>
        rw [chewformula] at h
        by_cases hu : isUpperC c = true
        · rw [if_pos hu] at h
          injection h with h
          exact ⟨[], by rw [← h]; simp, fun _ => by rw [← h]⟩
        · rw [if_neg hu] at h
          by_cases hs : isSbrack c = true
          · rw [if_pos hs] at h
            exact ihbracket _ ks evs out h
          · rw [if_neg hs] at h
            by_cases hd : isDigitC c = true
            · rw [if_pos hd] at h
              by_cases ha : (c :: rest).any isAlphaC = true
              · rw [if_pos ha] at h
                injection h with h
                exact ⟨[], by rw [← h]; simp, fun _ => by rw [← h]⟩
              · rw [if_neg ha] at h
                rcases hic : interpretcharge (ChargeIn.strC (c :: rest)) with _ | v
                · rw [hic] at h
                  exact absurd h (by simp)
                · rw [hic] at h
                  injection h with h
                  refine ⟨[v], by rw [← h], fun hc => absurd hc (by simp)⟩
            · rw [if_neg hd] at h
              exact absurd h (by simp)
    refine ⟨hchew, ?_, ?_, ?_⟩
    · -- bracket
      intro form ks evs out h
      match form with
      | [] => exact absurd h (by simp [bracket])
      | c :: rest =>
        rw [bracket] at h
        rcases hbs : bscan c (closeOf c) rest 0 with _ | ⟨block, after⟩
        · simp [hbs] at h
        · simp only [hbs] at h
          rcases hbl : bracketLoop fuel block (bnumOf after) [] ks evs with _ | ⟨outdict, ks', evs'⟩
          · simp [hbl] at h
          · simp only [hbl, Option.some.injEq] at h
            obtain ⟨d, hd1, hd2⟩ := ihloop _ _ _ _ _ _ hbl
            subst h
            exact ⟨d, hd1, fun hc => hd2 hc⟩
    · -- bracketLoop
      intro block bnum outdict ks evs out h
      rw [bracketLoop] at h
      by_cases hemp : block.isEmpty = true
      · rw [if_pos hemp] at h
        injection h with h
        exact ⟨[], by rw [← h]; simp, fun _ => by rw [← h]⟩
      · rw [if_neg hemp] at h
        rcases hc : chewformula fuel block ks evs with _ | ⟨ftemp, td, ks1, evs1⟩
        · rw [hc] at h
          exact absurd h (by simp)
        · rw [hc] at h
          obtain ⟨d1, hd11, hd12⟩ := ihchew _ _ _ _ hc
          obtain ⟨d2, hd21, hd22⟩ := ihloop _ _ _ _ _ _ h
          refine ⟨d1 ++ d2, ?_, ?_⟩
          · rw [hd21]
            simp only at hd11
            rw [hd11, List.append_assoc]
          · intro hnil
            obtain ⟨h1, h2⟩ := List.append_eq_nil.mp hnil
            rw [hd22 h2]
            simp only at hd12
            rw [hd12 h1]
    · -- compLoop
      intro formula comp ks evs out h
      rw [compLoop] at h
      by_cases hemp : formula.isEmpty = true
      · rw [if_pos hemp] at h
        injection h with h
        exact ⟨[], by rw [← h]; simp, fun _ => by rw [← h]⟩
      · rw [if_neg hemp] at h
        rcases hc : chewformula fuel formula ks evs with _ | ⟨ftemp, td, ks1, evs1⟩
        · rw [hc] at h
          exact absurd h (by simp)
        · rw [hc] at h
          obtain ⟨d1, hd11, hd12⟩ := ihchew _ _ _ _ hc
          obtain ⟨d2, hd21, hd22⟩ := ihcomp _ _ _ _ _ h
          refine ⟨d1 ++ d2, ?_, ?_⟩
          · rw [hd21]
            simp only at hd11
            rw [hd11, List.append_assoc]
          · intro hnil
            obtain ⟨h1, h2⟩ := List.append_eq_nil.mp hnil
            rw [hd22 h2]
            simp only at hd12
            rw [hd12 h1]

/-- Claim C6, amended: parsing mutates the stored charge configuration
exactly through the inline charge specifiers it consumes: whenever a parse
records no charge overwrite event, the charge magnitude and sign are
returned unchanged (and the counterexample shows that a formula containing
an inline charge specifier does overwrite them). -/
theorem C6_no_charge_token_pure (abbrvs : Abbrvs) (f : List Char) (ks : KS)
    (c : Comp) (ks' : KS)
    (h : composition abbrvs f ks = some (c, ks', [])) : ks' = ks := by
  rw [composition] at h
  rcases hcl : compLoop (2 * f.length + 2) f [] ks [] with _ | ⟨c0, ks0, evs0⟩
  · rw [hcl] at h
    exact absurd h (by simp)
  · rw [hcl] at h
    injection h with h
    have h2 : ks0 = ks' ∧ evs0 = [] := by
      have := congrArg (fun t : Comp × KS × List KS => t.2) h
      simp only at this
      exact ⟨congrArg Prod.fst this, congrArg Prod.snd this⟩
    obtain ⟨hks0, hevs0⟩ := h2
    obtain ⟨d, hd1, hd2⟩ := (parser_charge_frame (2 * f.length + 2)).2.2.2 f [] ks [] _ hcl
    simp only at hd1 hd2
    rw [hevs0] at hd1
    have hdnil : d = [] := by
      have := hd1.symm
      simpa using this
    rw [← hks0]
    exact hd2 hdnil

/-- Witness for C6_no_charge_token_pure: parsing "H2O" (no charge
specifier) leaves the configuration (1, '+') unchanged. -/
theorem C6_no_charge_token_pure_witness : ((1, '+') : KS) = ((1, '+') : KS) :=
  C6_no_charge_token_pure [] ['H', '2', 'O'] (1, '+')
    [(['H'], 2), (['O'], 1)] (1, '+') (by decide)

/- The round-trip between molecularformula and composition (claim C5). -/

/-- A plain element symbol: an uppercase letter followed by lowercase
letters. -/
def plainKeyB (k : Key) : Bool :=
  match k with
  | [] => false
  | c :: cs => isUpperC c && cs.all isLowerC

/-- Claim C5, counterexample: the valid composition with one explicit 13C
and two H renders as "H213C", which reparses as H213 C1: the canonical
string of an isotope-designator key is re-tokenized into the preceding
element's count, so the round trip fails on compositions containing
isotope keys. -/
theorem C5_counterexample :
    molecularformula [(['1', '3', 'C'], 1), (['H'], 2)] = ['H', '2', '1', '3', 'C'] ∧
    composition [] ['H', '2', '1', '3', 'C'] (1, '+')
      = some ([(['H'], 213), (['C'], 1)], (1, '+'), []) ∧
    lookupC [(['H'], 213), (['C'], 1)] ['1', '3', 'C'] = none ∧
    lookupC [(['1', '3', 'C'], 1), (['H'], 2)] ['1', '3', 'C'] = some 1 := by
  decide

/- Character class facts. -/

theorem isSbrack_eq_false {c : Char} (h40 : c.toNat ≠ 40) (h123 : c.toNat ≠ 123)
    (h91 : c.toNat ≠ 91) : isSbrack c = false := by
  simp only [isSbrack, decide_eq_false_iff_not]
  rintro (h | h | h)
  · exact h40 (by rw [h]; rfl)
  · exact h123 (by rw [h]; rfl)
  · exact h91 (by rw [h]; rfl)

theorem lower_flags {c : Char} (h : isLowerC c = true) :
    isUpperC c = false ∧ isSbrack c = false ∧ isDigitC c = false := by
  simp only [isLowerC, decide_eq_true_eq] at h
  refine ⟨?_, ?_, ?_⟩
  · simp only [isUpperC, decide_eq_false_iff_not]
    omega
  · exact isSbrack_eq_false (by omega) (by omega) (by omega)
  · simp only [isDigitC, decide_eq_false_iff_not]
    omega

theorem digit_flags {c : Char} (h : isDigitC c = true) :
    isUpperC c = false ∧ isSbrack c = false := by
  simp only [isDigitC, decide_eq_true_eq] at h
  constructor
  · simp only [isUpperC, decide_eq_false_iff_not]
    omega
  · exact isSbrack_eq_false (by omega) (by omega) (by omega)

theorem upper_not_digit {c : Char} (h : isUpperC c = true) : isDigitC c = false := by
  simp only [isUpperC, decide_eq_true_eq] at h
  simp only [isDigitC, decide_eq_false_iff_not]
  omega

theorem digitChar_facts : ∀ d : Nat, d < 10 →
    (Char.ofNat (48 + d)).toNat = 48 + d ∧ isDigitC (Char.ofNat (48 + d)) = true := by
  decide

/- Decimal rendering round-trip. -/

theorem natStrAux_digits : ∀ (fuel n : Nat), n < fuel →
    ∀ c ∈ natStrAux fuel n, isDigitC c = true := by
  intro fuel
  induction fuel with
  | zero => intro n h; omega
  | succ f ih =>
    intro n h c hc
    rw [natStrAux] at hc
    by_cases h10 : n < 10
    · rw [if_pos h10] at hc
      rcases List.mem_cons.mp hc with h1 | h1
      · subst h1
        exact (digitChar_facts n h10).2
      · exact absurd h1 (List.not_mem_nil c)
    · rw [if_neg h10] at hc
      rcases List.mem_append.mp hc with h1 | h1
      · exact ih (n / 10) (by omega) c h1
      · rcases List.mem_cons.mp h1 with h2 | h2
        · subst h2
          exact (digitChar_facts (n % 10) (by omega)).2
        · exact absurd h2 (List.not_mem_nil c)

theorem natStrAux_ne_nil : ∀ (fuel n : Nat), n < fuel → natStrAux fuel n ≠ [] := by
  intro fuel n h
  match fuel with
  | 0 => omega
  | f + 1 =>
    rw [natStrAux]
    by_cases h10 : n < 10
    · rw [if_pos h10]
      simp
    · rw [if_neg h10]
      simp

theorem strToNat_append_digit (l : List Char) (c : Char) :
    strToNat (l ++ [c]) = 10 * strToNat l + (c.toNat - 48) := by
  simp [strToNat, List.foldl_append]

theorem natStrAux_parse : ∀ (fuel n : Nat), n < fuel →
    strToNat (natStrAux fuel n) = n := by
  intro fuel
  induction fuel with
  | zero => intro n h; omega
  | succ f ih =>
    intro n h
    rw [natStrAux]
    by_cases h10 : n < 10
    · rw [if_pos h10]
      show strToNat [Char.ofNat (48 + n)] = n
      simp only [strToNat, List.foldl_cons, List.foldl_nil]
      rw [(digitChar_facts n h10).1]
      omega
    · rw [if_neg h10]
      rw [strToNat_append_digit]
      rw [ih (n / 10) (by omega)]
      rw [(digitChar_facts (n % 10) (by omega)).1]
      omega

theorem natStr_digits (n : Nat) : ∀ c ∈ natStr n, isDigitC c = true :=
  natStrAux_digits (n + 1) n (by omega)

theorem natStr_ne_nil (n : Nat) : natStr n ≠ [] :=
  natStrAux_ne_nil (n + 1) n (by omega)

theorem natStr_parse (n : Nat) : strToNat (natStr n) = n :=
  natStrAux_parse (n + 1) n (by omega)

/- More association list facts. -/

theorem lookupC_none_not_mem {c : Comp} {k : Key} (h : lookupC c k = none) :
    k ∉ c.map Prod.fst := by
  induction c with
  | nil => simp
  | cons p r ih =>
    obtain ⟨k0, v0⟩ := p
    rw [lookupC_cons] at h
    by_cases hk : k0 = k
    · rw [if_pos hk] at h
      exact absurd h (by simp)
    · rw [if_neg hk] at h
      intro hc
      rw [List.map_cons] at hc
      rcases List.mem_cons.mp hc with h1 | h1
      · exact hk h1.symm
      · exact ih h h1

theorem mem_of_lookupC_eq_some {c : Comp} {k : Key} {v : Int}
    (h : lookupC c k = some v) : (k, v) ∈ c := by
  induction c with
  | nil => simp [lookupC] at h
  | cons p r ih =>
    obtain ⟨k0, v0⟩ := p
    rw [lookupC_cons] at h
    by_cases hk : k0 = k
    · rw [if_pos hk] at h
      injection h with h
      subst hk
      subst h
      exact List.mem_cons_self _ _
    · rw [if_neg hk] at h
      exact List.mem_cons_of_mem _ (ih h)

theorem lookupC_eq_some_of_mem {c : Comp} {k : Key} {v : Int}
    (hnd : (c.map Prod.fst).Nodup) (h : (k, v) ∈ c) : lookupC c k = some v := by
  induction c with
  | nil => exact absurd h (List.not_mem_nil _)
  | cons p r ih =>
    obtain ⟨k0, v0⟩ := p
    have hnd' : (k0 ∉ r.map Prod.fst) ∧ (r.map Prod.fst).Nodup := by
      rw [List.map_cons] at hnd
      exact List.nodup_cons.mp hnd
    rcases List.mem_cons.mp h with h1 | h1
    · have hk : k0 = k := (congrArg Prod.fst h1).symm
      have hv : v0 = v := (congrArg Prod.snd h1).symm
      rw [lookupC_cons, if_pos hk, hv]
    · have hk : ¬ k0 = k := by
        intro hc
        subst hc
        exact hnd'.1 (List.mem_map_of_mem Prod.fst h1)
      rw [lookupC_cons, if_neg hk]
      exact ih hnd'.2 h1

theorem lookupC_of_perm {c1 c2 : Comp} (hperm : List.Perm c1 c2)
    (hnd1 : (c1.map Prod.fst).Nodup) (k : Key) :
    lookupC c1 k = lookupC c2 k := by
  rcases hc : lookupC c2 k with _ | v
  · apply lookupC_eq_none_of_not_mem
    intro hk
    exact (lookupC_none_not_mem hc) (((hperm.map Prod.fst).mem_iff).mp hk)
  · exact lookupC_eq_some_of_mem hnd1 (hperm.mem_iff.mpr (mem_of_lookupC_eq_some hc))

theorem addKey_append {c : Comp} {k : Key} (v : Int) (h : k ∉ c.map Prod.fst) :
    addKey c k v = c ++ [(k, v)] := by
  rw [addKey, lookupC_eq_none_of_not_mem h]

/-- chewformula on an element block followed by digits and a remainder
that is empty or starts with an uppercase letter: the block is consumed
whole and interpreted as the symbol with its count. -/
theorem chew_block_aux (fuel : Nat) (kc : Char) (ktail B rest : List Char)
    (ks : KS) (evs : List KS)
    (hkc : isUpperC kc = true) (hktail : ∀ c ∈ ktail, isLowerC c = true)
    (hB : ∀ c ∈ B, isDigitC c = true)
    (hrest : rest = [] ∨ ∃ d dr, rest = d :: dr ∧ isUpperC d = true) :
    chewformula (fuel + 1) (kc :: (ktail ++ (B ++ rest))) ks evs
      = some (rest, [(kc :: ktail, if B.isEmpty then 1 else (strToNat B : Int))], ks, evs) := by
  have hp1 : ∀ a ∈ ktail, (!(isUpperC a) && !(isSbrack a)) = true := by
    intro a ha
    have hf := lower_flags (hktail a ha)
    rw [hf.1, hf.2.1]
    rfl
  have hp2 : ∀ a ∈ B, (!(isUpperC a) && !(isSbrack a)) = true := by
    intro a ha
    have hf := digit_flags (hB a ha)
    rw [hf.1, hf.2]
    rfl
  have hp3 : rest.takeWhile (fun d => !(isUpperC d) && !(isSbrack d)) = [] := by
    rcases hrest with h | ⟨d, dr, hdd, hd⟩
    · rw [h]
      rfl
    · rw [hdd]
      rw [List.takeWhile_cons_of_neg]
      simp [hd]
  have htake : (ktail ++ (B ++ rest)).takeWhile (fun d => !(isUpperC d) && !(isSbrack d))
      = ktail ++ B := by
    rw [List.takeWhile_append_of_pos hp1, List.takeWhile_append_of_pos hp2, hp3,
      List.append_nil]
  have hdrop : (kc :: (ktail ++ (B ++ rest))).drop (kc :: (ktail ++ B)).length = rest := by
    have he : kc :: (ktail ++ (B ++ rest)) = (kc :: (ktail ++ B)) ++ rest := by
      simp [List.append_assoc]
    rw [he, List.drop_left]
  have hint : interpret (kc :: (ktail ++ B))
      = [(kc :: ktail, if B.isEmpty then 1 else (strToNat B : Int))] := by
    rw [interpret]
    rw [if_neg (by simp [upper_not_digit hkc])]
    have hfil1 : (ktail ++ B).filter (fun d => !(isDigitC d)) = ktail := by
      rw [List.filter_append]
      have ha : ktail.filter (fun d => !(isDigitC d)) = ktail :=
        List.filter_eq_self.mpr (fun a ha => by rw [(lower_flags (hktail a ha)).2.2]; rfl)
      have hb : B.filter (fun d => !(isDigitC d)) = [] :=
        List.filter_eq_nil_iff.mpr (fun a ha => by rw [hB a ha]; simp)
      rw [ha, hb, List.append_nil]
    have hfil2 : (ktail ++ B).filter isDigitC = B := by
      rw [List.filter_append]
      have ha : ktail.filter isDigitC = [] :=
        List.filter_eq_nil_iff.mpr (fun a ha => by rw [(lower_flags (hktail a ha)).2.2]; simp)
      have hb : B.filter isDigitC = B := List.filter_eq_self.mpr (fun a ha => hB a ha)
      rw [ha, hb, List.nil_append]
    rw [hfil1, hfil2]
  simp only [chewformula]
  rw [if_pos hkc]
  rw [htake, hdrop, hint]

/-- chewformula on a rendered block: consumes exactly the block and
returns the singleton composition. -/
theorem chew_block (fuel : Nat) (k : Key) (cnt : Int) (rest : List Char)
    (ks : KS) (evs : List KS)
    (hk : plainKeyB k = true) (hcnt : 1 ≤ cnt)
    (hrest : rest = [] ∨ ∃ d dr, rest = d :: dr ∧ isUpperC d = true) :
    chewformula (fuel + 1) (renderBlock (k, cnt) ++ rest) ks evs
      = some (rest, [(k, cnt)], ks, evs) := by
  match k with
  | [] => simp [plainKeyB] at hk
  | kc :: ktail =>
    simp only [plainKeyB, Bool.and_eq_true, List.all_eq_true] at hk
    obtain ⟨hkc, hktail⟩ := hk
    by_cases h1 : cnt > 1
    · have hform : renderBlock (kc :: ktail, cnt) ++ rest
          = kc :: (ktail ++ (natStr cnt.toNat ++ rest)) := by
        simp [renderBlock, h1, List.append_assoc]
      rw [hform]
      rw [chew_block_aux fuel kc ktail (natStr cnt.toNat) rest ks evs hkc
        (fun c hc => hktail c hc) (natStr_digits cnt.toNat) hrest]
      have hcount : (if (natStr cnt.toNat).isEmpty then 1
          else (strToNat (natStr cnt.toNat) : Int)) = cnt := by
        rw [if_neg (by simpa using natStr_ne_nil cnt.toNat)]
        rw [natStr_parse]
        omega
      rw [hcount]
    · have hc1 : cnt = 1 := by omega
      subst hc1
      have hform : renderBlock (kc :: ktail, 1) ++ rest
          = kc :: (ktail ++ ([] ++ rest)) := by
        simp [renderBlock]
      rw [hform]
      rw [chew_block_aux fuel kc ktail [] rest ks evs hkc (fun c hc => hktail c hc)
        (fun c hc => absurd hc (List.not_mem_nil c)) hrest]
      rfl

theorem length_le_renderBlocks : ∀ (bs : List (Key × Int)),
    (∀ p ∈ bs, plainKeyB p.1 = true) → bs.length ≤ (renderBlocks bs).length := by
  intro bs
  induction bs with
  | nil => intro _; simp [renderBlocks]
  | cons b rest ih =>
    intro hval
    rw [renderBlocks, List.length_append, List.length_cons]
    have h1 : 1 ≤ (renderBlock b).length := by
      rw [renderBlock, List.length_append]
      have hb := hval b (List.mem_cons_self _ _)
      rcases hb1 : b.1 with _ | ⟨c, cs⟩
      · rw [hb1] at hb
        simp [plainKeyB] at hb
      · simp only [List.length_cons]
        omega
    have h2 := ih (fun p hp => (hval p (List.mem_cons_of_mem _ hp)))
    omega

theorem not_mem_left_of_nodup_append {acc : Comp} {k : Key} {cnt : Int}
    {rest : List (Key × Int)}
    (hnd : ((acc ++ (k, cnt) :: rest).map Prod.fst).Nodup) :
    k ∉ acc.map Prod.fst := by
  rw [List.map_append] at hnd
  have hd := List.nodup_append.mp hnd
  intro hc
  exact hd.2.2 hc (by rw [List.map_cons]; exact List.mem_cons_self _ _)

theorem compLoop_render : ∀ (bs : List (Key × Int)) (fuel : Nat) (acc : Comp)
    (ks : KS) (evs : List KS),
    bs.length < fuel →
    (∀ p ∈ bs, plainKeyB p.1 = true ∧ 1 ≤ p.2) →
    ((acc ++ bs).map Prod.fst).Nodup →
    compLoop fuel (renderBlocks bs) acc ks evs = some (acc ++ bs, ks, evs) := by
  intro bs
  induction bs with
  | nil =>
    intro fuel acc ks evs hf _ _
    match fuel with
    | 0 => omega
    | f + 1 =>
      rw [compLoop]
      simp [renderBlocks]
  | cons b rest ih =>
    intro fuel acc ks evs hf hval hnd
    match fuel with
    | 0 => omega
    | f + 1 =>
      obtain ⟨k, cnt⟩ := b
      obtain ⟨hpk, hpc⟩ := hval (k, cnt) (List.mem_cons_self _ _)
      have hrest : renderBlocks rest = [] ∨
          ∃ d dr, renderBlocks rest = d :: dr ∧ isUpperC d = true := by
        match rest with
        | [] => exact Or.inl rfl
        | b2 :: rest2 =>
          obtain ⟨hpk2, _⟩ := hval b2 (List.mem_cons_of_mem _ (List.mem_cons_self _ _))
          rcases hb2 : b2.1 with _ | ⟨c2, cs2⟩
          · rw [hb2] at hpk2
            simp [plainKeyB] at hpk2
          · right
            refine ⟨c2, cs2 ++ ((if b2.2 > 1 then natStr b2.2.toNat else [])
              ++ renderBlocks rest2), ?_, ?_⟩
            · show renderBlock b2 ++ renderBlocks rest2 = _
              rw [renderBlock, hb2]
              simp [List.append_assoc]
            · rw [hb2] at hpk2
              simp only [plainKeyB, Bool.and_eq_true] at hpk2
              exact hpk2.1
      have hfpos : 1 ≤ f := by
        have : rest.length < f := by
          have hl := hf
          rw [List.length_cons] at hl
          omega
        omega
      obtain ⟨g, rfl⟩ : ∃ g, f = g + 1 := ⟨f - 1, by omega⟩
      show compLoop (g + 1 + 1) (renderBlocks ((k, cnt) :: rest)) acc ks evs = _
      rw [renderBlocks, compLoop]
      have hne : (renderBlock (k, cnt) ++ renderBlocks rest).isEmpty = false := by
        rcases hb1 : k with _ | ⟨c, cs⟩
        · rw [hb1] at hpk
          simp [plainKeyB] at hpk
        · simp [renderBlock]
      have hcond : ¬ ((renderBlock (k, cnt) ++ renderBlocks rest).isEmpty = true) := by
        simp [hne]
      rw [if_neg hcond]
      simp only [chew_block g k cnt (renderBlocks rest) ks evs hpk hpc hrest]
      simp only [List.foldl_cons, List.foldl_nil]
      have hknotacc : k ∉ acc.map Prod.fst := not_mem_left_of_nodup_append hnd
      rw [addKey_append cnt hknotacc]
      have hnd2 : (((acc ++ [(k, cnt)]) ++ rest).map Prod.fst).Nodup := by
        have he : (acc ++ [(k, cnt)]) ++ rest = acc ++ (k, cnt) :: rest :=
          (List.append_cons acc (k, cnt) rest).symm
        rw [he]
        exact hnd
      have hrec := ih (g + 1) (acc ++ [(k, cnt)]) ks evs
        (by rw [List.length_cons] at hf; omega)
        (fun p hp => hval p (List.mem_cons_of_mem _ hp)) hnd2
      rw [hrec]
      rw [(List.append_cons acc (k, cnt) rest).symm]

theorem abbrFold_id (abbrvs : Abbrvs) : ∀ (dic acc : Comp),
    (∀ p ∈ dic, lookupA abbrvs p.1 = none) →
    ((acc ++ dic).map Prod.fst).Nodup →
    dic.foldl (fun ct p =>
      match lookupA abbrvs p.1 with
      | some sub => sub.foldl (fun ct2 q => addKey ct2 q.1 (q.2 * p.2)) ct
      | none => addKey ct p.1 p.2) acc = acc ++ dic := by
  intro dic
  induction dic with
  | nil => intro acc _ _; simp
  | cons p rest ih =>
    intro acc habb hnd
    obtain ⟨k, v⟩ := p
    rw [List.foldl_cons]
    simp only [habb (k, v) (List.mem_cons_self _ _)]
    rw [addKey_append v (not_mem_left_of_nodup_append hnd)]
    have hnd2 : (((acc ++ [(k, v)]) ++ rest).map Prod.fst).Nodup := by
      have he : (acc ++ [(k, v)]) ++ rest = acc ++ (k, v) :: rest :=
        (List.append_cons acc (k, v) rest).symm
      rw [he]
      exact hnd
    have hrec := ih (acc ++ [(k, v)])
      (fun q hq => habb q (List.mem_cons_of_mem _ hq)) hnd2
    rw [hrec]
    rw [(List.append_cons acc (k, v) rest).symm]

theorem abbreviations_id (abbrvs : Abbrvs) (dic : Comp)
    (h : ∀ p ∈ dic, lookupA abbrvs p.1 = none)
    (hnd : (dic.map Prod.fst).Nodup) : abbreviations abbrvs dic = dic := by
  have hres := abbrFold_id abbrvs dic [] h (by simpa using hnd)
  simpa [abbreviations] using hres

theorem renderBlocks_append : ∀ (a b : List (Key × Int)),
    renderBlocks (a ++ b) = renderBlocks a ++ renderBlocks b := by
  intro a b
  induction a with
  | nil => rfl
  | cons p r ih =>
    rw [List.cons_append, renderBlocks, renderBlocks, ih, List.append_assoc]

/-- The carbon-or-hydrogen test special-cased by molecularformula. -/
def isCH (p : Key × Int) : Bool := decide (p.1 = ['C'] ∨ p.1 = ['H'])

theorem foldl_skip : ∀ (l : List (Key × Int)) (init : List Char),
    l.foldl (fun out p =>
        if p.1 = ['C'] ∨ p.1 = ['H'] then out else out ++ renderBlock p) init
      = init ++ renderBlocks (l.filter (fun p => ! isCH p)) := by
  intro l
  induction l with
  | nil => intro init; simp [renderBlocks]
  | cons p r ih =>
    intro init
    rw [List.foldl_cons]
    by_cases h : p.1 = ['C'] ∨ p.1 = ['H']
    · have hb : (! isCH p) = false := by simp [isCH, h]
      rw [if_pos h, ih, List.filter_cons, hb]
      simp
    · have hb : (! isCH p) = true := by simp [isCH, h]
      rw [if_neg h, ih, List.filter_cons, hb]
      simp [renderBlocks, List.append_assoc]

/-- The special-cased block of a composition at a given key. -/
def listCH (c : Comp) (k : Key) : List (Key × Int) :=
  match lookupC c k with
  | some v => [(k, v)]
  | none => []

/-- The reordered composition whose rendering molecularformula emits:
carbon block, hydrogen block, then the remaining entries in sorted order. -/
def reorder (c : Comp) : List (Key × Int) :=
  (listCH c ['C'] ++ listCH c ['H']) ++
    (List.insertionSort keyPairLe c).filter (fun p => ! isCH p)

theorem molecularformula_eq_render (c : Comp) :
    molecularformula c = renderBlocks (reorder c) := by
  simp only [molecularformula, reorder]
  rw [foldl_skip, renderBlocks_append, renderBlocks_append]
  congr 1
  congr 1
  · rcases h : lookupC c ['C'] with _ | v <;> simp [listCH, h, renderBlocks]
  · rcases h : lookupC c ['H'] with _ | v <;> simp [listCH, h, renderBlocks]

theorem filter_key_eq : ∀ (c : Comp) (k : Key), (c.map Prod.fst).Nodup →
    c.filter (fun p => decide (p.1 = k)) = listCH c k := by
  intro c
  induction c with
  | nil => intro k _; rfl
  | cons p r ih =>
    intro k hnd
    obtain ⟨k0, v⟩ := p
    rw [List.map_cons, List.nodup_cons] at hnd
    by_cases h : k0 = k
    · subst h
      have hnil : r.filter (fun p => decide (p.1 = k0)) = [] := by
        rw [List.filter_eq_nil_iff]
        intro a ha
        simp only [decide_eq_true_eq]
        intro hc
        have hm : a.1 ∈ List.map Prod.fst r := List.mem_map_of_mem Prod.fst ha
        rw [hc] at hm
        exact hnd.1 hm
      rw [List.filter_cons]
      simp [hnil, listCH, lookupC_cons]
    · have hb : decide ((k0, v).1 = k) = false := by simp [h]
      rw [List.filter_cons, hb]
      simp only [Bool.false_eq_true, if_false]
      rw [ih k hnd.2]
      simp [listCH, lookupC_cons, h]

theorem filterCH_perm (c : Comp) (hnd : (c.map Prod.fst).Nodup) :
    List.Perm (listCH c ['C'] ++ listCH c ['H']) (c.filter isCH) := by
  have hsplit := List.filter_append_perm
    (fun p : Key × Int => decide (p.1 = ['C'])) (c.filter isCH)
  have h1 : (c.filter isCH).filter (fun p => decide (p.1 = ['C']))
      = c.filter (fun p => decide (p.1 = ['C'])) := by
    rw [List.filter_filter]
    apply List.filter_congr
    intro a _
    by_cases h : a.1 = ['C'] <;> simp [isCH, h]
  have h2 : (c.filter isCH).filter (fun p => ! decide (p.1 = ['C']))
      = c.filter (fun p => decide (p.1 = ['H'])) := by
    rw [List.filter_filter]
    apply List.filter_congr
    intro a _
    by_cases h : a.1 = ['C']
    · simp [isCH, h]
    · by_cases h2 : a.1 = ['H'] <;> simp [isCH, h, h2]
  have key : listCH c ['C'] ++ listCH c ['H']
      = (c.filter isCH).filter (fun p => decide (p.1 = ['C']))
        ++ (c.filter isCH).filter (fun p => ! decide (p.1 = ['C'])) := by
    rw [h1, h2, filter_key_eq c ['C'] hnd, filter_key_eq c ['H'] hnd]
  rw [key]
  exact hsplit

theorem reorder_perm (c : Comp) (hnd : (c.map Prod.fst).Nodup) :
    List.Perm (reorder c) c := by
  simp only [reorder]
  have hs : List.Perm (List.insertionSort keyPairLe c) c :=
    List.perm_insertionSort _ c
  have hF := hs.filter (fun p => ! isCH p)
  have happ := (filterCH_perm c hnd).append hF
  exact List.Perm.trans happ (List.filter_append_perm isCH c)

/-- Claim C5, amended: for every valid composition whose keys are all plain
element symbols (an uppercase letter followed by lowercase letters, as
produced for natural-abundance elements) with counts at least one, none of
which is an abbreviation key, parsing the canonical formula string back
reproduces every element count exactly and leaves the charge state
untouched with no charge overwrites.  Compositions containing explicit
isotope-designator keys re-tokenize and break the round trip. -/
theorem C5_roundtrip_plain (abbrvs : Abbrvs) (c : Comp) (ks : KS)
    (h1 : ∀ p ∈ c, plainKeyB p.1 = true ∧ 1 ≤ p.2)
    (h2 : (c.map Prod.fst).Nodup)
    (h3 : ∀ p ∈ c, lookupA abbrvs p.1 = none) :
    ∃ c', composition abbrvs (molecularformula c) ks = some (c', ks, []) ∧
      ∀ k, lookupC c' k = lookupC c k := by
  have hperm := reorder_perm c h2
  have hmem : ∀ p ∈ reorder c, p ∈ c := fun p hp => hperm.mem_iff.mp hp
  have hvals : ∀ p ∈ reorder c, plainKeyB p.1 = true ∧ 1 ≤ p.2 :=
    fun p hp => h1 p (hmem p hp)
  have hndr : ((reorder c).map Prod.fst).Nodup :=
    ((hperm.map Prod.fst).nodup_iff).mpr h2
  have hlen : (reorder c).length ≤ (renderBlocks (reorder c)).length :=
    length_le_renderBlocks (reorder c) (fun p hp => (hvals p hp).1)
  refine ⟨reorder c, ?_, fun k => lookupC_of_perm hperm hndr k⟩
  rw [molecularformula_eq_render]
  simp only [composition]
  have hrun := compLoop_render (reorder c)
    (2 * (renderBlocks (reorder c)).length + 2) [] ks []
    (by omega) hvals (by simpa using hndr)
  rw [hrun]
  simp [abbreviations_id abbrvs (reorder c) (fun p hp => h3 p (hmem p hp)) hndr]

/-- The amended round trip, checked on the composition C2 O1. -/
theorem C5_roundtrip_plain_witness :
    ∃ c', composition [] (molecularformula [(['C'], 2), (['O'], 1)]) (1, '+')
      = some (c', (1, '+'), []) ∧
      ∀ k, lookupC c' k = lookupC [(['C'], 2), (['O'], 1)] k :=
  C5_roundtrip_plain [] [(['C'], 2), (['O'], 1)] (1, '+')
    (by decide) (by decide) (by decide)

end Molecule
